import Mathlib

/-!
Verification of the adversarial-search engines of the repository
(`my_custom_player.py` and `monte_carlo_player.py`): fixed-depth and
iterative-deepening minimax, alpha-beta pruning, and Monte Carlo Tree
Search with UCT selection.

The game-state adapter is modelled abstractly (`Game`), matching the
spec's external-collaborator interface: `actions`, `result`,
`terminal_test`, `utility` (valued in ±∞ plus finite values), `player`
and `ply_count`.  Numeric game values are modelled exactly by `ERat`
(rationals extended with both infinities); Python's float arithmetic on
these values is exact for the comparisons the code performs.
-/

/-- Extended rationals: the value domain of the search (`float("-inf")`,
finite values, `float("inf")`). -/
inductive ERat : Type where
  | ninf : ERat
  | fin : ℚ → ERat
  | pinf : ERat
deriving DecidableEq

namespace ERat

/-- Interpretation into `WithBot (WithTop ℚ)`, used to lift the linear order. -/
def toWB : ERat → WithBot (WithTop ℚ)
  | ninf => ⊥
  | fin q => ((q : WithTop ℚ) : WithBot (WithTop ℚ))
  | pinf => ((⊤ : WithTop ℚ) : WithBot (WithTop ℚ))

theorem toWB_injective : Function.Injective toWB := by
  intro a b h
  cases a <;> cases b <;> simp [toWB] at h <;> simp [h]

instance : LinearOrder ERat := LinearOrder.lift' toWB toWB_injective

instance : Bot ERat := ⟨ninf⟩
instance : Top ERat := ⟨pinf⟩

theorem bot_def : (⊥ : ERat) = ninf := rfl
theorem top_def : (⊤ : ERat) = pinf := rfl

theorem le_def (a b : ERat) : a ≤ b ↔ toWB a ≤ toWB b := Iff.rfl
theorem lt_def (a b : ERat) : a < b ↔ toWB a < toWB b := Iff.rfl

theorem bot_le (a : ERat) : (⊥ : ERat) ≤ a := by
  cases a <;> simp [le_def, bot_def, toWB]

theorem le_top (a : ERat) : a ≤ (⊤ : ERat) := by
  cases a <;> simp [le_def, top_def, toWB]

instance : OrderBot ERat := ⟨ERat.bot_le⟩
instance : OrderTop ERat := ⟨ERat.le_top⟩

theorem bot_lt_top : (⊥ : ERat) < (⊤ : ERat) := by
  rw [lt_def]; exact WithBot.bot_lt_coe _

theorem fin_lt_pinf (q : ℚ) : fin q < (⊤ : ERat) := by
  rw [lt_def]; exact WithBot.coe_lt_coe.2 (WithTop.coe_lt_top q)

theorem ninf_lt_fin (q : ℚ) : (⊥ : ERat) < fin q := by
  rw [lt_def]; exact WithBot.bot_lt_coe _

theorem fin_le_fin_iff (p q : ℚ) : fin p ≤ fin q ↔ p ≤ q := by
  simp [le_def, toWB]

theorem fin_lt_fin_iff (p q : ℚ) : fin p < fin q ↔ p < q := by
  simp [lt_def, toWB]

end ERat

/-- The external game-state adapter interface (spec section 6): legal
actions for the side to move, state transition, terminal test, terminal
utility from a player's perspective, side to move, and ply counter. -/
structure Game (S A : Type) where
  actions : S → List A
  result : S → A → S
  terminal_test : S → Bool
  utility : S → Nat → ERat
  player : S → Nat
  ply_count : S → Nat

/-- First-maximum selection: Python's `max(enumerate(l), key=lambda x: x[1])[0]`
accumulator loop.  Keeps the earlier index on ties, replacing the current
best only on a strict increase. -/
def pyArgmaxGo {α : Type} [LinearOrder α] : List α → Nat → α → Nat → Nat
  | [], bi, _, _ => bi
  | x :: xs, bi, bv, k =>
      if bv < x then pyArgmaxGo xs k x (k + 1) else pyArgmaxGo xs bi bv (k + 1)

/-- Python `max(enumerate(l), key=lambda x: x[1])[0]`: index of the first
maximal element; `none` models the `ValueError` on an empty sequence. -/
def pyArgmax {α : Type} [LinearOrder α] : List α → Option Nat
  | [] => none
  | x :: xs => some (pyArgmaxGo xs 0 x 1)

/-- Accumulator loop of Python's `max(iterable, key=f)`. -/
def pyMaxKeyGo {A β : Type} [LinearOrder β] (key : A → β) : List A → A → A
  | [], cur => cur
  | a :: rest, cur => if key cur < key a then pyMaxKeyGo key rest a else pyMaxKeyGo key rest cur

/-- Python `max(iterable, key=f)`: the first element attaining the maximal
key; `none` models the `ValueError` on an empty sequence. -/
def pyMaxKey {A β : Type} [LinearOrder β] (key : A → β) : List A → Option A
  | [] => none
  | a :: rest => some (pyMaxKeyGo key rest a)

section Minimax

variable {S A : Type}

/-- The mutually recursive `min_value` / `max_value` pair of
`CustomPlayerBase`, folded into one function on a side flag
(`true` = `max_value`, `false` = `min_value`).  A terminal state returns
`utility(player_id)`; at depth 0 the heuristic is returned; otherwise the
fold over the legal actions takes the max/min of the one-ply-deeper value,
starting from `float("-inf")` / `float("inf")` as in the source. -/
def mval (g : Game S A) (pid : Nat) (h : S → ℚ) : Nat → Bool → S → ERat
  | 0, _, s => if g.terminal_test s then g.utility s pid else ERat.fin (h s)
  | d + 1, true, s =>
      if g.terminal_test s then g.utility s pid
      else (g.actions s).foldl (fun v a => max v (mval g pid h d false (g.result s a))) ⊥
  | d + 1, false, s =>
      if g.terminal_test s then g.utility s pid
      else (g.actions s).foldl (fun v a => min v (mval g pid h d true (g.result s a))) ⊤

namespace CustomPlayerBase

/-- `CustomPlayerBase.min_value` (source lines 182-188). -/
def min_value (g : Game S A) (pid : Nat) (h : S → ℚ) (s : S) (d : Nat) : ERat :=
  mval g pid h d false s

/-- `CustomPlayerBase.max_value` (source lines 190-196). -/
def max_value (g : Game S A) (pid : Nat) (h : S → ℚ) (s : S) (d : Nat) : ERat :=
  mval g pid h d true s

/-- `CustomPlayerBase.minimax` (source lines 198-200): Python
`max(state.actions(), key=lambda x: min_value(state.result(x), depth - 1))`. -/
def minimax (g : Game S A) (pid : Nat) (h : S → ℚ) (s : S) (d : Nat) : Option A :=
  pyMaxKey (fun x => min_value g pid h (g.result s x) (d - 1)) (g.actions s)

/-- `CustomPlayerBase._iterative_deepening_action` (source lines 227-232):
the list of successive recommendations put on the queue, one fixed-depth
minimax result for each depth from 1 to the cap. -/
def iterative_deepening_action (g : Game S A) (pid : Nat) (h : S → ℚ)
    (s : S) (depth_limit : Nat) : List (Option A) :=
  (List.range depth_limit).map (fun k => minimax g pid h s (k + 1))

/-- `CustomPlayerBase.get_action` (source lines 158-180): on the first two
plies an action chosen at random from `state.actions()` is published first
(the random draw is modelled by a free index `i`, reduced mod the number
of actions as `random.choice` always picks a member); then the
iterative-deepening search runs with cap 10.  An empty action list makes
`random.choice` raise, publishing nothing. -/
def get_action (g : Game S A) (pid : Nat) (h : S → ℚ) (i : Nat) (s : S) :
    List (Option A) :=
  if g.ply_count s < 2 then
    match (g.actions s)[i % (g.actions s).length]? with
    | none => []
    | some a => some a :: iterative_deepening_action g pid h s 10
  else iterative_deepening_action g pid h s 10

end CustomPlayerBase

/-- The loop body of `ab_min_value` (source lines 283-296): running
minimum `v`, early return once `v <= alpha`, and tightening of `beta`. -/
def abMinLoop (f : S → ERat → ERat → ERat) (res : A → S) (alpha : ERat) :
    List A → ERat → ERat → ERat
  | [], v, _ => v
  | a :: rest, v, beta =>
      let v2 := min v (f (res a) alpha beta)
      if v2 ≤ alpha then v2 else abMinLoop f res alpha rest v2 (min beta v2)

/-- The loop body of `ab_max_value` (source lines 298-311): running
maximum `v`, early return once `v >= beta`, and tightening of `alpha`. -/
def abMaxLoop (f : S → ERat → ERat → ERat) (res : A → S) (beta : ERat) :
    List A → ERat → ERat → ERat
  | [], v, _ => v
  | a :: rest, v, alpha =>
      let v2 := max v (f (res a) alpha beta)
      if beta ≤ v2 then v2 else abMaxLoop f res beta rest v2 (max alpha v2)

/-- The mutually recursive `ab_min_value` / `ab_max_value` pair of
`IterativeAlphaBeta`, folded into one function on a side flag
(`true` = `ab_max_value`, `false` = `ab_min_value`). -/
def abval (g : Game S A) (pid : Nat) (h : S → ℚ) : Nat → Bool → S → ERat → ERat → ERat
  | 0, _, s, _, _ => if g.terminal_test s then g.utility s pid else ERat.fin (h s)
  | d + 1, true, s, alpha, beta =>
      if g.terminal_test s then g.utility s pid
      else abMaxLoop (abval g pid h d false) (g.result s) beta (g.actions s) ⊥ alpha
  | d + 1, false, s, alpha, beta =>
      if g.terminal_test s then g.utility s pid
      else abMinLoop (abval g pid h d true) (g.result s) alpha (g.actions s) ⊤ beta

namespace IterativeAlphaBeta

/-- `IterativeAlphaBeta.ab_min_value` (source lines 283-296). -/
def ab_min_value (g : Game S A) (pid : Nat) (h : S → ℚ)
    (s : S) (alpha beta : ERat) (d : Nat) : ERat :=
  abval g pid h d false s alpha beta

/-- `IterativeAlphaBeta.ab_max_value` (source lines 298-311). -/
def ab_max_value (g : Game S A) (pid : Nat) (h : S → ℚ)
    (s : S) (alpha beta : ERat) (d : Nat) : ERat :=
  abval g pid h d true s alpha beta

/-- The root loop of `alpha_beta_search` (source lines 271-281): threads
`alpha` and the running `best_score`/`best_move`, updating the move only on
a strict improvement (`if v > best_score`); `beta` stays `float("inf")`. -/
def absLoop (f : A → ERat → ERat) : List A → ERat → ERat → Option A → ERat × Option A
  | [], _, best, bm => (best, bm)
  | a :: rest, alpha, best, bm =>
      let v := f a alpha
      let alpha2 := max alpha v
      if best < v then absLoop f rest alpha2 v (some a)
      else absLoop f rest alpha2 best bm

/-- `alpha_beta_search` together with its internal `best_score` (first
component); the source function returns only the move. -/
def alpha_beta_searchFull (g : Game S A) (pid : Nat) (h : S → ℚ) (s : S) (d : Nat) :
    ERat × Option A :=
  absLoop (fun a alpha => ab_min_value g pid h (g.result s a) alpha ⊤ (d - 1))
    (g.actions s) ⊥ ⊥ none

/-- `IterativeAlphaBeta.alpha_beta_search` (source lines 262-281). -/
def alpha_beta_search (g : Game S A) (pid : Nat) (h : S → ℚ) (s : S) (d : Nat) :
    Option A :=
  (alpha_beta_searchFull g pid h s d).2

/-- `IterativeAlphaBeta._iterative_alphabeta_action` (source lines 255-260):
successive recommendations, one alpha-beta result per depth up to the cap. -/
def iterative_alphabeta_action (g : Game S A) (pid : Nat) (h : S → ℚ)
    (s : S) (depth_limit : Nat) : List (Option A) :=
  (List.range depth_limit).map (fun k => alpha_beta_search g pid h s (k + 1))

/-- `IterativeAlphaBeta.get_action` (source lines 252-253). -/
def get_action (g : Game S A) (pid : Nat) (h : S → ℚ) (s : S) : List (Option A) :=
  iterative_alphabeta_action g pid h s 20

end IterativeAlphaBeta

/-- Number of states visited by the plain minimax value recursion: one for
the call itself plus, below a non-terminal state with remaining depth, the
visits of every child. -/
def mmCount (g : Game S A) : Nat → Bool → S → Nat
  | 0, _, _ => 1
  | d + 1, true, s =>
      if g.terminal_test s then 1
      else 1 + ((g.actions s).map (fun a => mmCount g d false (g.result s a))).sum
  | d + 1, false, s =>
      if g.terminal_test s then 1
      else 1 + ((g.actions s).map (fun a => mmCount g d true (g.result s a))).sum

/-- States visited by the `ab_min_value` loop: children are visited left to
right until the `v <= alpha` cutoff stops the loop. -/
def abCntMinLoop (fv : S → ERat → ERat → ERat) (fc : S → ERat → ERat → Nat)
    (res : A → S) (alpha : ERat) : List A → ERat → ERat → Nat
  | [], _, _ => 0
  | a :: rest, v, beta =>
      let v2 := min v (fv (res a) alpha beta)
      if v2 ≤ alpha then fc (res a) alpha beta
      else fc (res a) alpha beta + abCntMinLoop fv fc res alpha rest v2 (min beta v2)

/-- States visited by the `ab_max_value` loop: children are visited left to
right until the `v >= beta` cutoff stops the loop. -/
def abCntMaxLoop (fv : S → ERat → ERat → ERat) (fc : S → ERat → ERat → Nat)
    (res : A → S) (beta : ERat) : List A → ERat → ERat → Nat
  | [], _, _ => 0
  | a :: rest, v, alpha =>
      let v2 := max v (fv (res a) alpha beta)
      if beta ≤ v2 then fc (res a) alpha beta
      else fc (res a) alpha beta + abCntMaxLoop fv fc res beta rest v2 (max alpha v2)

/-- Number of states visited by the alpha-beta value recursion. -/
def abCnt (g : Game S A) (pid : Nat) (h : S → ℚ) : Nat → Bool → S → ERat → ERat → Nat
  | 0, _, _, _, _ => 1
  | d + 1, true, s, alpha, beta =>
      if g.terminal_test s then 1
      else 1 + abCntMaxLoop (abval g pid h d false) (abCnt g pid h d false)
        (g.result s) beta (g.actions s) ⊥ alpha
  | d + 1, false, s, alpha, beta =>
      if g.terminal_test s then 1
      else 1 + abCntMinLoop (abval g pid h d true) (abCnt g pid h d true)
        (g.result s) alpha (g.actions s) ⊤ beta

/-- States visited by the root loop of `alpha_beta_search`: every root child
is searched (no pruning at the root), each with the `alpha` reached so far. -/
def absCntLoop (fv : A → ERat → ERat) (fc : A → ERat → Nat) : List A → ERat → Nat
  | [], _ => 0
  | a :: rest, alpha => fc a alpha + absCntLoop fv fc rest (max alpha (fv a alpha))

/-- Total states visited by `alpha_beta_search(state, depth)`. -/
def abRootCount (g : Game S A) (pid : Nat) (h : S → ℚ) (s : S) (d : Nat) : Nat :=
  1 + absCntLoop (fun a alpha => abval g pid h (d - 1) false (g.result s a) alpha ⊤)
    (fun a alpha => abCnt g pid h (d - 1) false (g.result s a) alpha ⊤) (g.actions s) ⊥

/-- Total states visited by `minimax(state, depth)`. -/
def mmRootCount (g : Game S A) (_pid : Nat) (_h : S → ℚ) (s : S) (d : Nat) : Nat :=
  1 + ((g.actions s).map (fun a => mmCount g (d - 1) false (g.result s a))).sum

end Minimax

section MCTSDefs

variable {S A : Type}

/-- MCTS tree node (`monte_carlo_player.py` lines 8-18).  Nodes live in an
arena (a `List`), and the Python object references `parent` / `children`
become indices into it; `None` stays `Option`.  `wins` is a Python number
(rational in this model: rewards are ints or pass-throughs of utilities). -/
structure Node (S A : Type) where
  parent : Option Nat
  state : S
  untested_actions : List A
  children : List Nat
  actions : List A
  tot_plays : Nat
  wins : ℚ
  player_id : Nat
deriving DecidableEq

/-- `Node.__init__` (source lines 10-18). -/
def Node.init (g : Game S A) (s : S) (parent : Option Nat) (player_id : Nat) :
    Node S A :=
  { parent := parent, state := s, untested_actions := g.actions s,
    children := [], actions := [], tot_plays := 0, wins := 0, player_id := player_id }

/-- `Node.is_terminal` (source lines 31-32). -/
def Node.is_terminal (g : Game S A) (n : Node S A) : Bool :=
  g.terminal_test n.state

/-- `Node.is_expanded` (source lines 34-35): `len(untested_actions) == 0`. -/
def Node.is_expanded (n : Node S A) : Bool :=
  decide (n.untested_actions.length = 0)

/-- `Node.expand` (source lines 37-43): pop the LAST untested action
(Python `list.pop()`), build the child node, append it to `children` and
the action to `actions`.  `none` models the `IndexError` of popping from an
empty list or a dangling node index. -/
def Node.expand (g : Game S A) (sigma : List (Node S A)) (i : Nat) :
    Option (List (Node S A) × Nat) :=
  match sigma[i]? with
  | none => none
  | some n =>
    match n.untested_actions.getLast? with
    | none => none
    | some action =>
      let child_state := g.result n.state action
      let child := Node.init g child_state (some i) n.player_id
      let sigma2 := sigma.set i { n with
        untested_actions := n.untested_actions.dropLast,
        children := n.children ++ [sigma.length],
        actions := n.actions ++ [action] }
      some (sigma2 ++ [child], sigma.length)

/-- `Node.convert_reward` (source lines 53-59): `+inf` becomes 1, `-inf`
becomes 0, any other utility value is returned unchanged. -/
def Node.convert_reward : ERat → ℚ
  | ERat.pinf => 1
  | ERat.ninf => 0
  | ERat.fin q => q

/-- The `while not state.terminal_test()` loop of `Node.roll_out` (source
lines 45-51) with the random policy; the random draw at each step comes
from the oracle `rho` (indices reduced mod the number of legal actions, as
`random.choice` always picks a member).  `none` models non-termination
inside the fuel bound or `random.choice` on an empty list. -/
def rollLoop (g : Game S A) (rho : Nat → Nat) : Nat → S → Option S
  | 0, _ => none
  | fuel + 1, s =>
      if g.terminal_test s then some s
      else
        match (g.actions s)[rho fuel % (g.actions s).length]? with
        | none => none
        | some action => rollLoop g rho fuel (g.result s action)

/-- `Node.roll_out` (source lines 45-51): play random moves to a terminal
state, convert its utility from the node's fixed `player_id` perspective,
and also return the terminal state's side to move. -/
def Node.roll_out (g : Game S A) (rho : Nat → Nat) (n : Node S A) (fuel : Nat) :
    Option (ℚ × Nat) :=
  (rollLoop g rho fuel n.state).map
    (fun t => (Node.convert_reward (g.utility t n.player_id), g.player t))

/-- Python `x ^ 1` on an integer-valued number: flips the lowest bit of the
integer value (`x + 1` for even `x`, `x - 1` for odd `x`, two's
complement); only ever applied under the `den = 1` guard of `pyXor1`. -/
def pyFlip (r : ℚ) : ℚ :=
  ((if r.num % 2 = 0 then r.num + 1 else r.num - 1 : ℤ) : ℚ)

/-- Python `reward ^= 1`: only defined on ints; on a non-integral number a
`TypeError` is raised, modelled by `none`. -/
def pyXor1 (r : ℚ) : Option ℚ := if r.den = 1 then some (pyFlip r) else none

/-- `Node.backpropagate` (source lines 76-81): add the reward to `wins`,
flip the reward bit, increment `tot_plays`, and recurse into the parent;
stop at a node whose parent is `None`.  Fuel bounds the parent chain
(`none` models a cyclic chain, impossible in reachable arenas). -/
def Node.backpropagate : List (Node S A) → Nat → ℚ → Nat → Option (List (Node S A))
  | _, _, _, 0 => none
  | sigma, i, reward, fuel + 1 =>
      match sigma[i]? with
      | none => none
      | some n =>
        let sigma2 := sigma.set i
          { n with wins := n.wins + reward, tot_plays := n.tot_plays + 1 }
        match pyXor1 reward with
        | none => none
        | some r2 =>
          match n.parent with
          | none => some sigma2
          | some p => Node.backpropagate sigma2 p r2 fuel

/-- The parent's `tot_plays` as a real number, as read inside `Node.UCT`. -/
noncomputable def ptotR (sigma : List (Node S A)) (p : Nat) : ℝ :=
  match sigma[p]? with
  | some m => (m.tot_plays : ℝ)
  | none => 0

/-- `Node.UCT` (source lines 83-90): win rate plus, when a parent exists,
`const * sqrt(2 * log(parent.tot_plays) / tot_plays)`; a node with zero
visits returns the sentinel 0.0 before any division. -/
noncomputable def Node.UCT (sigma : List (Node S A)) (i : Nat) (const : ℝ) : ℝ :=
  match sigma[i]? with
  | none => 0
  | some n =>
    if 0 < n.tot_plays then
      ((n.wins / (n.tot_plays : ℚ) : ℚ) : ℝ) +
        (match n.parent with
         | some p => const * Real.sqrt (2 * Real.log (ptotR sigma p) / (n.tot_plays : ℝ))
         | none => 0)
    else 0

/-- `Node.select` (source lines 92-95): child with the maximal UCT score
(exploration constant `sqrt(2)`), first index on ties as Python `max`. -/
noncomputable def Node.select (sigma : List (Node S A)) (i : Nat) : Option Nat :=
  match sigma[i]? with
  | none => none
  | some n =>
    match pyArgmax (n.children.map (fun c => Node.UCT sigma c (Real.sqrt 2))) with
    | none => none
    | some k => n.children[k]?

/-- `Node.get_best_action` (source lines 61-74): argmax of the children's
UCT with constant 0; with zero explored children, pick an untested action
at random (oracle `chi`; the action is NOT removed from the untested
list), create and append its child node, and return the action together
with the child STATE (not the node).  `none` models `random.choice` on an
empty list and index errors. -/
noncomputable def Node.get_best_action (g : Game S A) (chi : Nat)
    (sigma : List (Node S A)) (i : Nat) :
    Option ((A × (Nat ⊕ S)) × List (Node S A)) :=
  match sigma[i]? with
  | none => none
  | some n =>
    let child_ucts := n.children.map (fun c => Node.UCT sigma c 0)
    if child_ucts.length = 0 then
      match n.untested_actions[chi % n.untested_actions.length]? with
      | none => none
      | some action =>
        let child_state := g.result n.state action
        let child := Node.init g child_state (some i) n.player_id
        let sigma2 := (sigma.set i { n with
          children := n.children ++ [sigma.length],
          actions := n.actions ++ [action] }) ++ [child]
        some ((action, Sum.inr child_state), sigma2)
    else
      match pyArgmax child_ucts with
      | none => none
      | some k =>
        match n.actions[k]?, n.children[k]? with
        | some act, some c => some ((act, Sum.inl c), sigma)
        | _, _ => none

/-- The whole engine state of `run_mcts`: the node arena, the current root,
the `self.context` slot (a node index, or a raw state when the degenerate
branch of `get_best_action` returned one), and the queue of published
recommendations for this turn. -/
structure EState (S A : Type) where
  nodes : List (Node S A)
  rootId : Nat
  context : Option (Nat ⊕ S)
  published : List A

/-- `select_node` inside `run_mcts` (source lines 125-131): descend while
non-terminal; expand (and return) at the first node with untested actions,
otherwise follow the maximal-UCT child. -/
noncomputable def select_node (g : Game S A) :
    Nat → List (Node S A) → Nat → Option (List (Node S A) × Nat)
  | 0, _, _ => none
  | fuel + 1, sigma, i =>
      match sigma[i]? with
      | none => none
      | some n =>
        if Node.is_terminal g n then some (sigma, i)
        else if Node.is_expanded n then
          match Node.select sigma i with
          | none => none
          | some j => select_node g fuel sigma j
        else Node.expand g sigma i

/-- One iteration of the `while True` loop of `run_mcts` (source lines
143-153): select/expand a leaf, roll out, pre-flip the reward when the
terminal mover is the searching agent, backpropagate, recompute the best
action, publish it, sever the best child's parent link and store it in the
context.  When the degenerate branch returned a raw state, assigning
`.parent` on the adapter's state object faults (`none`). -/
noncomputable def mctsIter (g : Game S A) (pid : Nat) (rho : Nat → Nat) (chi : Nat)
    (fuel : Nat) (st : EState S A) : Option (EState S A) :=
  match select_node g fuel st.nodes st.rootId with
  | none => none
  | some (sigma1, leaf) =>
    match sigma1[leaf]? with
    | none => none
    | some leafNode =>
      match Node.roll_out g rho leafNode fuel with
      | none => none
      | some (result0, final_player) =>
        match (if final_player = pid then pyXor1 result0 else some result0) with
        | none => none
        | some result1 =>
          match Node.backpropagate sigma1 leaf result1 (sigma1.length + 1) with
          | none => none
          | some sigma2 =>
            match Node.get_best_action g chi sigma2 st.rootId with
            | none => none
            | some ((best_action, ref), sigma3) =>
              match ref with
              | Sum.inl cid =>
                match sigma3[cid]? with
                | none => none
                | some cn =>
                  some { nodes := sigma3.set cid { cn with parent := none },
                         rootId := st.rootId,
                         context := some (Sum.inl cid),
                         published := st.published ++ [best_action] }
              | Sum.inr _ => none

/-- The root set-up of `run_mcts` (source lines 133-141): a fresh root node
for the incoming state is always created; if the context holds a node whose
first matching child carries the incoming state, the search re-roots at
that child instead (statistics preserved). -/
def run_mctsInit [DecidableEq S] (g : Game S A) (pid : Nat)
    (sigma0 : List (Node S A)) (ctx : Option (Nat ⊕ S)) (root_state : S) :
    List (Node S A) × Nat :=
  let sigma := sigma0 ++ [Node.init g root_state none pid]
  let rid := sigma0.length
  match ctx with
  | some (Sum.inl c) =>
    match sigma[c]? with
    | some cn =>
      match cn.children.find? (fun j =>
        match sigma[j]? with
        | some m => decide (m.state = root_state)
        | none => false) with
      | some j => (sigma, j)
      | none => (sigma, rid)
    | none => (sigma, rid)
  | _ => (sigma, rid)

/-- Engine state at the very first turn. -/
def initState [DecidableEq S] (g : Game S A) (pid : Nat) (s : S) : EState S A :=
  { nodes := (run_mctsInit g pid [] none s).1,
    rootId := (run_mctsInit g pid [] none s).2,
    context := none, published := [] }

/-- Engine state at the start of a later turn with incoming state `s`. -/
def newTurn [DecidableEq S] (g : Game S A) (pid : Nat) (st : EState S A) (s : S) :
    EState S A :=
  { nodes := (run_mctsInit g pid st.nodes st.context s).1,
    rootId := (run_mctsInit g pid st.nodes st.context s).2,
    context := st.context, published := [] }

/-- `N` iterations of the `run_mcts` loop, the oracle streams indexed by the
iteration counter `k`. -/
noncomputable def runIters (g : Game S A) (pid : Nat) (P : Nat → Nat → Nat)
    (X : Nat → Nat) (fuel : Nat) : Nat → Nat → EState S A → Option (EState S A)
  | _, 0, st => some st
  | k, n + 1, st =>
      match mctsIter g pid (P k) (X k) fuel st with
      | none => none
      | some st2 => runIters g pid P X fuel (k + 1) n st2

/-- Reachable engine states: a first-turn start, an iteration of the loop,
or the start of a new turn reusing the context. -/
inductive Reach [DecidableEq S] (g : Game S A) (pid : Nat) (P : Nat → Nat → Nat)
    (X : Nat → Nat) (fuel : Nat) : EState S A → Prop where
  | start (s : S) : Reach g pid P X fuel (initState g pid s)
  | step (st st2 : EState S A) (k : Nat) (hst : Reach g pid P X fuel st)
      (hiter : mctsIter g pid (P k) (X k) fuel st = some st2) :
      Reach g pid P X fuel st2
  | turn (st : EState S A) (s : S) (hst : Reach g pid P X fuel st) :
      Reach g pid P X fuel (newTurn g pid st s)

/-- Parent indices strictly decrease: every node's parent is an older node. -/
def PDec (sigma : List (Node S A)) : Prop :=
  ∀ (j : Nat) (n : Node S A) (p : Nat), sigma[j]? = some n → n.parent = some p → p < j

/-- Arena invariant: parents are older nodes and carry at least as many
visits as their children. -/
def ArenaInv (sigma : List (Node S A)) : Prop :=
  ∀ (j : Nat) (n : Node S A) (p : Nat), sigma[j]? = some n → n.parent = some p →
    p < j ∧ ∃ m : Node S A, sigma[p]? = some m ∧ n.tot_plays ≤ m.tot_plays

/-- Executable check for `PDec`, for concrete arenas. -/
def pdecB (sigma : List (Node S A)) : Bool :=
  (List.range sigma.length).all fun j =>
    match sigma[j]? with
    | some n =>
      match n.parent with
      | some p => decide (p < j)
      | none => true
    | none => true

/-- The chain of nodes that `backpropagate` walks: the start node, then
parents until a node with no parent. -/
def bpChain (sigma : List (Node S A)) : Nat → Nat → List Nat
  | 0, _ => []
  | fuel + 1, i =>
      i :: (match sigma[i]? with
        | some n =>
          match n.parent with
          | some p => bpChain sigma fuel p
          | none => []
        | none => [])

/-- The node at which backpropagation from `i` stops: the first ancestor
with no parent. -/
def bpStop (sigma : List (Node S A)) : Nat → Nat → Option Nat
  | 0, _ => none
  | fuel + 1, i =>
      match sigma[i]? with
      | none => none
      | some n =>
        match n.parent with
        | none => some i
        | some p => bpStop sigma fuel p

/-- `k`-fold application of the reward bit flip. -/
def flipIter : Nat → ℚ → ℚ
  | 0, r => r
  | k + 1, r => flipIter k (pyFlip r)

end MCTSDefs

section ConcreteGames

/-- Zero heuristic, used for concrete evaluations. -/
def hZero : Nat → ℚ := fun _ => 0

/-- A game whose only root action leads to a terminal loss: state 0 has the
single action 7 leading to terminal state 1 with utility `-inf`. -/
def GameAllLoss : Game Nat Nat where
  actions := fun s => if s = 0 then [7] else []
  result := fun _ _ => 1
  terminal_test := fun s => decide (s = 1)
  utility := fun _ _ => ERat.ninf
  player := fun _ => 1
  ply_count := fun _ => 5

/-- A game with two root actions 7 and 8 where 8 leads to an immediate win
for player 0 and 7 to an immediate loss. -/
def GameWin : Game Nat Nat where
  actions := fun s => if s = 0 then [7, 8] else []
  result := fun _ a => a
  terminal_test := fun s => decide (s ≠ 0)
  utility := fun s _ => if s = 8 then ERat.pinf else ERat.ninf
  player := fun _ => 1
  ply_count := fun _ => 0

/-- A single-line game for the MCTS engine: state 0 (one action, 10) leads
to state 1 (one action, 11) which leads to the terminal state 2, a win for
player 0; player 1 moves at the terminal state. -/
def GLine : Game Nat Nat where
  actions := fun s => if s = 0 then [10] else if s = 1 then [11] else []
  result := fun s _ => s + 1
  terminal_test := fun s => decide (2 ≤ s)
  utility := fun _ _ => ERat.pinf
  player := fun _ => 1
  ply_count := fun _ => 2

/-- The rational number one half, given in lowest terms. -/
def half : ℚ := ⟨1, 2, Nat.succ_ne_zero 1, Nat.coprime_one_left 2⟩

/-- A game whose only state is terminal with the fractional utility 1/2
(a finite draw value allowed by the adapter interface). -/
def GameDraw : Game Nat Nat where
  actions := fun _ => []
  result := fun s _ => s
  terminal_test := fun _ => true
  utility := fun _ _ => ERat.fin half
  player := fun _ => 1
  ply_count := fun _ => 0

/-- The MCTS engine run on `GLine` with constant-zero oracles. -/
noncomputable def runGLine (n : Nat) : Option (EState Nat Nat) :=
  runIters GLine 0 (fun _ _ => 0) (fun _ => 0) 10 0 n (initState GLine 0 0)

/-- A one-node context arena whose stored node lists child index 1 — the
slot the fresh root of the next turn will occupy — used to exercise the
re-rooting branch of `run_mctsInit` on a concrete input. -/
def ctxArena : List (Node Nat Nat) :=
  [{ Node.init GLine 0 none 0 with children := [1] }]

end ConcreteGames

/-! ### Generic lemmas about Python's first-maximum selection -/

theorem pyMaxKeyGo_spec {A β : Type} [LinearOrder β] (key : A → β) :
    ∀ (l : List A) (cur : A),
      (∀ x ∈ l, key x ≤ key (pyMaxKeyGo key l cur)) ∧
      key cur ≤ key (pyMaxKeyGo key l cur) ∧
      (pyMaxKeyGo key l cur = cur ∨
        ∃ (k : Nat) (m : A), l[k]? = some m ∧ pyMaxKeyGo key l cur = m ∧ key cur < key m ∧
          ∀ (j : Nat) (x : A), j < k → l[j]? = some x → key x < key m) := by
  intro l
  induction l with
  | nil => exact fun cur => ⟨by simp, le_refl _, Or.inl rfl⟩
  | cons a rest ih =>
    intro cur
    by_cases hca : key cur < key a
    · have hgo : pyMaxKeyGo key (a :: rest) cur = pyMaxKeyGo key rest a := by
        simp [pyMaxKeyGo, hca]
      obtain ⟨h1, h2, h3⟩ := ih a
      rw [hgo]
      refine ⟨?_, le_of_lt (lt_of_lt_of_le hca h2), ?_⟩
      · intro x hx
        rcases List.mem_cons.1 hx with hx | hx
        · exact hx ▸ h2
        · exact h1 x hx
      · right
        rcases h3 with h3 | ⟨k, m, hk, hgm, hcm, hbef⟩
        · exact ⟨0, a, by simp, h3, hca, fun j x hj => absurd hj (Nat.not_lt_zero j)⟩
        · refine ⟨k + 1, m, by simpa using hk, hgm, lt_trans hca hcm, ?_⟩
          intro j x hj hx
          cases j with
          | zero =>
            simp at hx
            exact hx ▸ hcm
          | succ i =>
            exact hbef i x (Nat.lt_of_succ_lt_succ hj) (by simpa using hx)
    · have hgo : pyMaxKeyGo key (a :: rest) cur = pyMaxKeyGo key rest cur := by
        simp [pyMaxKeyGo, hca]
      obtain ⟨h1, h2, h3⟩ := ih cur
      rw [hgo]
      refine ⟨?_, h2, ?_⟩
      · intro x hx
        rcases List.mem_cons.1 hx with hx | hx
        · exact hx ▸ le_trans (not_lt.1 hca) h2
        · exact h1 x hx
      · rcases h3 with h3 | ⟨k, m, hk, hgm, hcm, hbef⟩
        · exact Or.inl h3
        · refine Or.inr ⟨k + 1, m, by simpa using hk, hgm, hcm, ?_⟩
          intro j x hj hx
          cases j with
          | zero =>
            simp at hx
            exact hx ▸ lt_of_le_of_lt (not_lt.1 hca) hcm
          | succ i =>
            exact hbef i x (Nat.lt_of_succ_lt_succ hj) (by simpa using hx)

/-- Specification of `pyMaxKey` on a nonempty list: it returns the first
element attaining the maximal key. -/
theorem pyMaxKey_spec {A β : Type} [LinearOrder β] (key : A → β) (l : List A)
    (hne : l ≠ []) :
    ∃ (k : Nat) (a : A), l[k]? = some a ∧ pyMaxKey key l = some a ∧
      (∀ (j : Nat) (b : A), l[j]? = some b → key b ≤ key a) ∧
      (∀ (j : Nat) (b : A), j < k → l[j]? = some b → key b < key a) := by
  cases l with
  | nil => exact absurd rfl hne
  | cons a0 rest =>
    obtain ⟨h1, h2, h3⟩ := pyMaxKeyGo_spec key rest a0
    rcases h3 with h3 | ⟨k, m, hk, hgm, hcm, hbef⟩
    · refine ⟨0, a0, by simp, by simp [pyMaxKey, h3], ?_, ?_⟩
      · intro j b hj
        cases j with
        | zero => simp at hj; subst hj; exact le_rfl
        | succ i =>
          have hb : b ∈ rest := List.getElem?_mem (by simpa using hj)
          calc key b ≤ key (pyMaxKeyGo key rest a0) := h1 b hb
            _ = key a0 := by rw [h3]
      · intro j b hj
        exact absurd hj (Nat.not_lt_zero j)
    · refine ⟨k + 1, m, by simpa using hk, by simp [pyMaxKey, hgm], ?_, ?_⟩
      · intro j b hj
        cases j with
        | zero => simp at hj; subst hj; exact le_of_lt hcm
        | succ i =>
          have hb : b ∈ rest := List.getElem?_mem (by simpa using hj)
          calc key b ≤ key (pyMaxKeyGo key rest a0) := h1 b hb
            _ = key m := by rw [hgm]
      · intro j b hj hx
        cases j with
        | zero => simp at hx; subst hx; exact hcm
        | succ i =>
          exact hbef i b (Nat.lt_of_succ_lt_succ hj) (by simpa using hx)

/-! ### Claims C7, C8, C10: the minimax engine and its drivers -/

theorem range_map_getLast {γ : Type} (f : Nat → γ) (n : Nat) (hn : 0 < n) :
    ((List.range n).map f).getLast? = some (f (n - 1)) := by
  rw [List.getLast?_map]
  rw [List.getLast?_eq_getElem?]
  simp [Nat.sub_lt hn]

/-- C7: both iterative-deepening drivers publish, for each depth from 1 up
to the cap in strictly increasing order, exactly the fixed-depth search
result at that depth: the k-th publication (0-based) is the depth-(k+1)
fixed-depth result, and the final publication is the fixed-depth result
at the cap. -/
theorem C7_iterative_deepening_publishes {S A : Type} (g : Game S A) (pid : Nat)
    (h : S → ℚ) (s : S) (cap k : Nat) (hk : k < cap) :
    (CustomPlayerBase.iterative_deepening_action g pid h s cap).length = cap ∧
    (CustomPlayerBase.iterative_deepening_action g pid h s cap)[k]? =
      some (CustomPlayerBase.minimax g pid h s (k + 1)) ∧
    (CustomPlayerBase.iterative_deepening_action g pid h s cap).getLast? =
      some (CustomPlayerBase.minimax g pid h s cap) ∧
    (IterativeAlphaBeta.iterative_alphabeta_action g pid h s cap).length = cap ∧
    (IterativeAlphaBeta.iterative_alphabeta_action g pid h s cap)[k]? =
      some (IterativeAlphaBeta.alpha_beta_search g pid h s (k + 1)) ∧
    (IterativeAlphaBeta.iterative_alphabeta_action g pid h s cap).getLast? =
      some (IterativeAlphaBeta.alpha_beta_search g pid h s cap) := by
  have hcap : 0 < cap := Nat.lt_of_le_of_lt (Nat.zero_le k) hk
  have hsub : cap - 1 + 1 = cap := Nat.succ_pred_eq_of_pos hcap
  refine ⟨by simp [CustomPlayerBase.iterative_deepening_action], ?_, ?_,
    by simp [IterativeAlphaBeta.iterative_alphabeta_action], ?_, ?_⟩
  · simp [CustomPlayerBase.iterative_deepening_action, List.getElem?_map,
      List.getElem?_range hk]
  · rw [CustomPlayerBase.iterative_deepening_action, range_map_getLast _ _ hcap, hsub]
  · simp [IterativeAlphaBeta.iterative_alphabeta_action, List.getElem?_map,
      List.getElem?_range hk]
  · rw [IterativeAlphaBeta.iterative_alphabeta_action, range_map_getLast _ _ hcap, hsub]

/-- Witness for C7 at a concrete input. -/
theorem C7_iterative_deepening_publishes_witness :
    (2 : Nat) < 10 ∧
    (CustomPlayerBase.iterative_deepening_action GameWin 0 hZero 0 10)[2]? =
      some (CustomPlayerBase.minimax GameWin 0 hZero 0 3) := by
  refine ⟨by decide, ?_⟩
  exact (C7_iterative_deepening_publishes GameWin 0 hZero 0 10 2 (by decide)).2.1

/-- C8: `minimax(state, depth, heuristic)` returns the action maximizing
`min_value(result(action), depth - 1, heuristic)`, ties broken in favor of
the first-encountered action in the adapter's enumeration order; the
recursive value functions return `utility(player_id)` on terminal states
and the heuristic when the remaining depth reaches 0. -/
theorem C8_minimax_first_argmax {S A : Type} (g : Game S A) (pid : Nat)
    (h : S → ℚ) (s : S) (d : Nat) (hne : g.actions s ≠ []) :
    (∀ t : S, g.terminal_test t = true →
      CustomPlayerBase.min_value g pid h t d = g.utility t pid) ∧
    (∀ t : S, g.terminal_test t = false →
      CustomPlayerBase.min_value g pid h t 0 = ERat.fin (h t)) ∧
    ∃ (k : Nat) (a : A), (g.actions s)[k]? = some a ∧
      CustomPlayerBase.minimax g pid h s d = some a ∧
      (∀ (j : Nat) (b : A), (g.actions s)[j]? = some b →
        CustomPlayerBase.min_value g pid h (g.result s b) (d - 1) ≤
          CustomPlayerBase.min_value g pid h (g.result s a) (d - 1)) ∧
      (∀ (j : Nat) (b : A), j < k → (g.actions s)[j]? = some b →
        CustomPlayerBase.min_value g pid h (g.result s b) (d - 1) <
          CustomPlayerBase.min_value g pid h (g.result s a) (d - 1)) := by
  refine ⟨?_, ?_, ?_⟩
  · intro t ht
    cases d with
    | zero => simp [CustomPlayerBase.min_value, mval, ht]
    | succ d => simp [CustomPlayerBase.min_value, mval, ht]
  · intro t ht
    simp [CustomPlayerBase.min_value, mval, ht]
  · obtain ⟨k, a, hk, hmax, hle, hlt⟩ :=
      pyMaxKey_spec (fun x => CustomPlayerBase.min_value g pid h (g.result s x) (d - 1))
        (g.actions s) hne
    exact ⟨k, a, hk, hmax, fun j b hj => hle j b hj, fun j b hjk hj => hlt j b hjk hj⟩

/-- Witness for C8 at a concrete input. -/
theorem C8_minimax_first_argmax_witness :
    GameWin.actions 0 ≠ [] ∧
    ∃ (k : Nat) (a : Nat), (GameWin.actions 0)[k]? = some a ∧
      CustomPlayerBase.minimax GameWin 0 hZero 0 1 = some a ∧
      (∀ (j : Nat) (b : Nat), (GameWin.actions 0)[j]? = some b →
        CustomPlayerBase.min_value GameWin 0 hZero (GameWin.result 0 b) 0 ≤
          CustomPlayerBase.min_value GameWin 0 hZero (GameWin.result 0 a) 0) ∧
      (∀ (j : Nat) (b : Nat), j < k → (GameWin.actions 0)[j]? = some b →
        CustomPlayerBase.min_value GameWin 0 hZero (GameWin.result 0 b) 0 <
          CustomPlayerBase.min_value GameWin 0 hZero (GameWin.result 0 a) 0) :=
  ⟨by decide, (C8_minimax_first_argmax GameWin 0 hZero 0 1 (by decide)).2.2⟩

/-- C10: in the minimax player, for every state with `ply_count < 2` that
has at least one legal action, the first published recommendation is an
action drawn from `state.actions()` (the random draw modelled by the free
index `i`), and the iterative-deepening search still runs and publishes
afterwards. -/
theorem C10_opening_random_publish {S A : Type} (g : Game S A) (pid : Nat)
    (h : S → ℚ) (s : S) (i : Nat) (hply : g.ply_count s < 2)
    (hne : g.actions s ≠ []) :
    ∃ a : A, (g.actions s)[i % (g.actions s).length]? = some a ∧ a ∈ g.actions s ∧
      CustomPlayerBase.get_action g pid h i s =
        some a :: CustomPlayerBase.iterative_deepening_action g pid h s 10 := by
  have hlen : 0 < (g.actions s).length := List.length_pos.2 hne
  have hmod : i % (g.actions s).length < (g.actions s).length := Nat.mod_lt i hlen
  obtain ⟨a, ha⟩ : ∃ a, (g.actions s)[i % (g.actions s).length]? = some a := by
    exact ⟨(g.actions s).get ⟨_, hmod⟩, by simp [List.getElem?_eq_getElem hmod]⟩
  refine ⟨a, ha, List.getElem?_mem ha, ?_⟩
  simp [CustomPlayerBase.get_action, hply, ha]

/-- Witness for C10 at a concrete input. -/
theorem C10_opening_random_publish_witness :
    GameWin.ply_count 0 < 2 ∧ GameWin.actions 0 ≠ [] ∧
    ∃ a : Nat, (GameWin.actions 0)[3 % (GameWin.actions 0).length]? = some a ∧
      a ∈ GameWin.actions 0 ∧
      CustomPlayerBase.get_action GameWin 0 hZero 3 0 =
        some a :: CustomPlayerBase.iterative_deepening_action GameWin 0 hZero 0 10 :=
  ⟨by decide, by decide,
    C10_opening_random_publish GameWin 0 hZero 0 3 (by decide) (by decide)⟩

/-! ### Claim C1: alpha-beta pruning versus unpruned minimax -/

section C1Lemmas

variable {S A : Type}

theorem abMinLoop_cons (f : S → ERat → ERat → ERat) (res : A → S) (alpha : ERat)
    (a : A) (rest : List A) (v beta : ERat) :
    abMinLoop f res alpha (a :: rest) v beta =
      if min v (f (res a) alpha beta) ≤ alpha then min v (f (res a) alpha beta)
      else abMinLoop f res alpha rest (min v (f (res a) alpha beta))
        (min beta (min v (f (res a) alpha beta))) := rfl

theorem abMaxLoop_cons (f : S → ERat → ERat → ERat) (res : A → S) (beta : ERat)
    (a : A) (rest : List A) (v alpha : ERat) :
    abMaxLoop f res beta (a :: rest) v alpha =
      if beta ≤ max v (f (res a) alpha beta) then max v (f (res a) alpha beta)
      else abMaxLoop f res beta rest (max v (f (res a) alpha beta))
        (max alpha (max v (f (res a) alpha beta))) := rfl

theorem foldl_min_le {γ α : Type} [LinearOrder α] (f : γ → α) :
    ∀ (l : List γ) (v : α), List.foldl (fun acc a => min acc (f a)) v l ≤ v := by
  intro l
  induction l with
  | nil => intro v; exact le_rfl
  | cons a rest ih =>
    intro v
    rw [List.foldl_cons]
    exact le_trans (ih _) (min_le_left _ _)

theorem foldl_max_ge {γ α : Type} [LinearOrder α] (f : γ → α) :
    ∀ (l : List γ) (v : α), v ≤ List.foldl (fun acc a => max acc (f a)) v l := by
  intro l
  induction l with
  | nil => intro v; exact le_rfl
  | cons a rest ih =>
    intro v
    rw [List.foldl_cons]
    exact le_trans (le_max_left _ _) (ih _)

theorem foldl_min_min {γ α : Type} [LinearOrder α] (f : γ → α) :
    ∀ (l : List γ) (v w : α),
      List.foldl (fun acc a => min acc (f a)) (min v w) l =
        min v (List.foldl (fun acc a => min acc (f a)) w l) := by
  intro l
  induction l with
  | nil => intro v w; rfl
  | cons a rest ih =>
    intro v w
    rw [List.foldl_cons, List.foldl_cons, min_assoc, ih]

theorem foldl_max_max {γ α : Type} [LinearOrder α] (f : γ → α) :
    ∀ (l : List γ) (v w : α),
      List.foldl (fun acc a => max acc (f a)) (max v w) l =
        max v (List.foldl (fun acc a => max acc (f a)) w l) := by
  intro l
  induction l with
  | nil => intro v w; rfl
  | cons a rest ih =>
    intro v w
    rw [List.foldl_cons, List.foldl_cons, max_assoc, ih]

theorem foldl_min_split {γ α : Type} [LinearOrder α] [OrderTop α] (f : γ → α)
    (l : List γ) (v : α) :
    List.foldl (fun acc a => min acc (f a)) v l =
      min v (List.foldl (fun acc a => min acc (f a)) ⊤ l) := by
  conv_lhs => rw [show v = min v ⊤ from (min_eq_left le_top).symm]
  exact foldl_min_min f l v ⊤

theorem foldl_max_split {γ α : Type} [LinearOrder α] [OrderBot α] (f : γ → α)
    (l : List γ) (v : α) :
    List.foldl (fun acc a => max acc (f a)) v l =
      max v (List.foldl (fun acc a => max acc (f a)) ⊥ l) := by
  conv_lhs => rw [show v = max v ⊥ from (max_eq_left bot_le).symm]
  exact foldl_max_max f l v ⊥

theorem abMinLoop_le (f : S → ERat → ERat → ERat) (res : A → S) (alpha : ERat) :
    ∀ (l : List A) (v beta : ERat), abMinLoop f res alpha l v beta ≤ v := by
  intro l
  induction l with
  | nil => intro v beta; exact le_rfl
  | cons a rest ih =>
    intro v beta
    rw [abMinLoop_cons]
    by_cases hle : min v (f (res a) alpha beta) ≤ alpha
    · rw [if_pos hle]; exact min_le_left _ _
    · rw [if_neg hle]; exact le_trans (ih _ _) (min_le_left _ _)

theorem abMaxLoop_ge (f : S → ERat → ERat → ERat) (res : A → S) (beta : ERat) :
    ∀ (l : List A) (v alpha : ERat), v ≤ abMaxLoop f res beta l v alpha := by
  intro l
  induction l with
  | nil => intro v alpha; exact le_rfl
  | cons a rest ih =>
    intro v alpha
    rw [abMaxLoop_cons]
    by_cases hle : beta ≤ max v (f (res a) alpha beta)
    · rw [if_pos hle]; exact le_max_left _ _
    · rw [if_neg hle]; exact le_trans (le_max_left _ _) (ih _ _)

end C1Lemmas

section C1Clamp

variable {S A : Type}

theorem min_min_distrib {α : Type} [LinearOrder α] (a b c : α) :
    min a (min b c) = min (min a b) (min a c) := inf_inf_distrib_left a b c

theorem max_min_distrib {α : Type} [LinearOrder α] (a b c : α) :
    max a (min b c) = min (max a b) (max a c) := sup_inf_left a b c

theorem min_max_distrib {α : Type} [LinearOrder α] (a b c : α) :
    min a (max b c) = max (min a b) (min a c) := inf_sup_left a b c

theorem max_max_distrib {α : Type} [LinearOrder α] (a b c : α) :
    max a (max b c) = max (max a b) (max a c) := sup_sup_distrib_left a b c

/-- Clamp invariant for the `ab_min_value` loop: inside the window
`(alpha, beta)` the pruned loop agrees with the unpruned minimum fold. -/
theorem abMinLoop_clamp (g : Game S A) (pid : Nat) (h : S → ℚ) (d : Nat) (s : S)
    (alpha : ERat)
    (ih : ∀ (t : S) (a2 b2 : ERat), a2 < b2 →
      max a2 (min b2 (abval g pid h d true t a2 b2)) =
        max a2 (min b2 (mval g pid h d true t))) :
    ∀ (l : List A) (v beta : ERat), alpha < beta →
      max alpha (min beta (abMinLoop (abval g pid h d true) (g.result s) alpha l v beta)) =
        max alpha (min beta
          (List.foldl (fun acc a => min acc (mval g pid h d true (g.result s a))) v l)) := by
  intro l
  induction l with
  | nil => intro v beta _; rfl
  | cons a rest ihl =>
    intro v beta hab
    rw [abMinLoop_cons, List.foldl_cons]
    set c := abval g pid h d true (g.result s a) alpha beta with hc
    set Mc := mval g pid h d true (g.result s a) with hMc
    have hkey : max alpha (min beta c) = max alpha (min beta Mc) := ih _ _ _ hab
    have hstar : max alpha (min beta (min v c)) = max alpha (min beta (min v Mc)) := by
      rw [min_min_distrib beta v c, min_min_distrib beta v Mc,
        max_min_distrib alpha (min beta v) (min beta c),
        max_min_distrib alpha (min beta v) (min beta Mc), hkey]
    by_cases hexit : min v c ≤ alpha
    · rw [if_pos hexit]
      have hl1 : max alpha (min beta (min v c)) = alpha :=
        max_eq_left (le_trans (min_le_right _ _) hexit)
      have hT2 : min beta (min v Mc) ≤ alpha := sup_eq_left.1 (hstar.symm.trans hl1)
      have hF : List.foldl (fun acc a => min acc (mval g pid h d true (g.result s a)))
          (min v Mc) rest ≤ min v Mc := foldl_min_le _ _ _
      have h3 : min beta (List.foldl (fun acc a => min acc (mval g pid h d true (g.result s a)))
          (min v Mc) rest) ≤ alpha := le_trans (min_le_min_left beta hF) hT2
      rw [hl1]
      exact (max_eq_left h3).symm
    · rw [if_neg hexit]
      push_neg at hexit
      have hab2 : alpha < min beta (min v c) := lt_min hab hexit
      have ihr := ihl (min v c) (min beta (min v c)) hab2
      set r := abMinLoop (abval g pid h d true) (g.result s) alpha rest (min v c)
        (min beta (min v c)) with hr
      have hrle : r ≤ min v c := abMinLoop_le _ _ _ _ _ _
      set R := List.foldl (fun acc a => min acc (mval g pid h d true (g.result s a))) ⊤ rest
        with hR
      have hs1 : List.foldl (fun acc a => min acc (mval g pid h d true (g.result s a)))
          (min v c) rest = min (min v c) R := foldl_min_split _ _ _
      have hs2 : List.foldl (fun acc a => min acc (mval g pid h d true (g.result s a)))
          (min v Mc) rest = min (min v Mc) R := foldl_min_split _ _ _
      have e1 : min (min beta (min v c)) r = min beta r := by
        rw [min_assoc, min_eq_right hrle]
      have e2 : min (min beta (min v c)) (min (min v c) R) = min beta (min (min v c) R) := by
        rw [min_assoc]
        congr 1
        rw [← min_assoc, min_self]
      calc max alpha (min beta r)
          = max alpha (min (min beta (min v c)) r) := by rw [e1]
        _ = max alpha (min (min beta (min v c))
              (List.foldl (fun acc a => min acc (mval g pid h d true (g.result s a)))
                (min v c) rest)) := ihr
        _ = max alpha (min (min beta (min v c)) (min (min v c) R)) := by rw [hs1]
        _ = max alpha (min beta (min (min v c) R)) := by rw [e2]
        _ = max alpha (min beta (min (min v Mc) R)) := by
            rw [min_min_distrib beta (min v c) R, min_min_distrib beta (min v Mc) R,
              max_min_distrib alpha (min beta (min v c)) (min beta R),
              max_min_distrib alpha (min beta (min v Mc)) (min beta R), hstar]
        _ = max alpha (min beta
              (List.foldl (fun acc a => min acc (mval g pid h d true (g.result s a)))
                (min v Mc) rest)) := by rw [hs2]

/-- Clamp invariant for the `ab_max_value` loop. -/
theorem abMaxLoop_clamp (g : Game S A) (pid : Nat) (h : S → ℚ) (d : Nat) (s : S)
    (beta : ERat)
    (ih : ∀ (t : S) (a2 b2 : ERat), a2 < b2 →
      max a2 (min b2 (abval g pid h d false t a2 b2)) =
        max a2 (min b2 (mval g pid h d false t))) :
    ∀ (l : List A) (v alpha : ERat), alpha < beta →
      max alpha (min beta (abMaxLoop (abval g pid h d false) (g.result s) beta l v alpha)) =
        max alpha (min beta
          (List.foldl (fun acc a => max acc (mval g pid h d false (g.result s a))) v l)) := by
  intro l
  induction l with
  | nil => intro v alpha _; rfl
  | cons a rest ihl =>
    intro v alpha hab
    rw [abMaxLoop_cons, List.foldl_cons]
    set c := abval g pid h d false (g.result s a) alpha beta with hc
    set Mc := mval g pid h d false (g.result s a) with hMc
    have hkey : max alpha (min beta c) = max alpha (min beta Mc) := ih _ _ _ hab
    have hstar : max alpha (min beta (max v c)) = max alpha (min beta (max v Mc)) := by
      rw [min_max_distrib beta v c, min_max_distrib beta v Mc,
        max_max_distrib alpha (min beta v) (min beta c),
        max_max_distrib alpha (min beta v) (min beta Mc), hkey]
    by_cases hfail : beta ≤ max v c
    · rw [if_pos hfail]
      have hl1 : max alpha (min beta (max v c)) = beta := by
        rw [min_eq_left hfail]
        exact max_eq_right (le_of_lt hab)
      have hT2 : max alpha (min beta (max v Mc)) = beta := hstar.symm.trans hl1
      have hge : min beta (max v Mc) ≤
          min beta (List.foldl (fun acc a => max acc (mval g pid h d false (g.result s a)))
            (max v Mc) rest) :=
        min_le_min_left beta (foldl_max_ge _ _ _)
      have hle2 : max alpha (min beta
          (List.foldl (fun acc a => max acc (mval g pid h d false (g.result s a)))
            (max v Mc) rest)) ≤ beta :=
        max_le (le_of_lt hab) (min_le_left _ _)
      have hge2 : beta ≤ max alpha (min beta
          (List.foldl (fun acc a => max acc (mval g pid h d false (g.result s a)))
            (max v Mc) rest)) := by
        calc beta = max alpha (min beta (max v Mc)) := hT2.symm
          _ ≤ _ := max_le_max_left alpha hge
      rw [hl1]
      exact (le_antisymm hle2 hge2).symm
    · rw [if_neg hfail]
      push_neg at hfail
      have hab2 : max alpha (max v c) < beta := max_lt hab hfail
      have ihr := ihl (max v c) (max alpha (max v c)) hab2
      set r := abMaxLoop (abval g pid h d false) (g.result s) beta rest (max v c)
        (max alpha (max v c)) with hr
      have hrge : max v c ≤ r := abMaxLoop_ge _ _ _ _ _ _
      set R := List.foldl (fun acc a => max acc (mval g pid h d false (g.result s a))) ⊥ rest
        with hR
      have hs1 : List.foldl (fun acc a => max acc (mval g pid h d false (g.result s a)))
          (max v c) rest = max (max v c) R := foldl_max_split _ _ _
      have hs2 : List.foldl (fun acc a => max acc (mval g pid h d false (g.result s a)))
          (max v Mc) rest = max (max v Mc) R := foldl_max_split _ _ _
      have e1 : max (max alpha (max v c)) (min beta r) = max alpha (min beta r) := by
        rw [max_assoc]
        congr 1
        exact max_eq_right (le_min (le_of_lt hfail) hrge)
      have e2 : max (max alpha (max v c)) (min beta (max (max v c) R)) =
          max alpha (min beta (max (max v c) R)) := by
        rw [max_assoc]
        congr 1
        exact max_eq_right (le_min (le_of_lt hfail) (le_max_left _ _))
      calc max alpha (min beta r)
          = max (max alpha (max v c)) (min beta r) := e1.symm
        _ = max (max alpha (max v c)) (min beta
              (List.foldl (fun acc a => max acc (mval g pid h d false (g.result s a)))
                (max v c) rest)) := ihr
        _ = max (max alpha (max v c)) (min beta (max (max v c) R)) := by rw [hs1]
        _ = max alpha (min beta (max (max v c) R)) := e2
        _ = max alpha (min beta (max (max v Mc) R)) := by
            rw [min_max_distrib beta (max v c) R, min_max_distrib beta (max v Mc) R,
              max_max_distrib alpha (min beta (max v c)) (min beta R),
              max_max_distrib alpha (min beta (max v Mc)) (min beta R), hstar]
        _ = max alpha (min beta
              (List.foldl (fun acc a => max acc (mval g pid h d false (g.result s a)))
                (max v Mc) rest)) := by rw [hs2]

/-- Knuth-Moore style window invariant: within the window `(alpha, beta)`,
the alpha-beta value recursion agrees with the unpruned minimax value. -/
theorem abval_clamp (g : Game S A) (pid : Nat) (h : S → ℚ) :
    ∀ (d : Nat) (b : Bool) (s : S) (alpha beta : ERat), alpha < beta →
      max alpha (min beta (abval g pid h d b s alpha beta)) =
        max alpha (min beta (mval g pid h d b s)) := by
  intro d
  induction d with
  | zero => intro b s alpha beta _; rfl
  | succ d ihd =>
    intro b s alpha beta hab
    cases b with
    | false =>
      cases ht : g.terminal_test s with
      | true => simp [abval, mval, ht]
      | false =>
        simp only [abval, mval, ht, Bool.false_eq_true, if_false]
        exact abMinLoop_clamp g pid h d s alpha
          (fun t a2 b2 hb => ihd true t a2 b2 hb) (g.actions s) ⊤ beta hab
    | true =>
      cases ht : g.terminal_test s with
      | true => simp [abval, mval, ht]
      | false =>
        simp only [abval, mval, ht, Bool.false_eq_true, if_false]
        exact abMaxLoop_clamp g pid h d s beta
          (fun t a2 b2 hb => ihd false t a2 b2 hb) (g.actions s) ⊥ alpha hab

end C1Clamp

section C1Root

variable {S A : Type}

theorem absLoop_cons (f : A → ERat → ERat) (a : A) (rest : List A)
    (alpha best : ERat) (bm : Option A) :
    IterativeAlphaBeta.absLoop f (a :: rest) alpha best bm =
      if best < f a alpha then
        IterativeAlphaBeta.absLoop f rest (max alpha (f a alpha)) (f a alpha) (some a)
      else IterativeAlphaBeta.absLoop f rest (max alpha (f a alpha)) best bm := rfl

theorem pyMaxKeyGo_cons {A2 β : Type} [LinearOrder β] (key : A2 → β) (a : A2)
    (rest : List A2) (cur : A2) :
    pyMaxKeyGo key (a :: rest) cur =
      if key cur < key a then pyMaxKeyGo key rest a else pyMaxKeyGo key rest cur := rfl

theorem foldl_max_key_go {γ α : Type} [LinearOrder α] (key : γ → α) :
    ∀ (l : List γ) (cur : γ),
      List.foldl (fun acc x => max acc (key x)) (key cur) l = key (pyMaxKeyGo key l cur) := by
  intro l
  induction l with
  | nil => intro cur; rfl
  | cons a rest ih =>
    intro cur
    rw [List.foldl_cons, pyMaxKeyGo_cons]
    by_cases hk : key cur < key a
    · rw [if_pos hk, max_eq_right (le_of_lt hk)]
      exact ih a
    · rw [if_neg hk, max_eq_left (not_lt.1 hk)]
      exact ih cur

/-- Invariant of the root loop of `alpha_beta_search`: threading
`alpha = best_score`, the loop tracks exactly Python `max`'s first-argmax
accumulator, with `best_move` lagging as `none` while `best_score` is still
`-inf`. -/
theorem absLoop_go (g : Game S A) (pid : Nat) (h : S → ℚ) (d : Nat) (s : S) :
    ∀ (l : List A) (best : ERat) (bm : Option A) (cur : A),
      best = mval g pid h d false (g.result s cur) →
      (bm = some cur ∨ (bm = none ∧ best = ⊥)) →
      (IterativeAlphaBeta.absLoop
          (fun a alpha => abval g pid h d false (g.result s a) alpha ⊤) l best best bm).1 =
        mval g pid h d false (g.result s
          (pyMaxKeyGo (fun x => mval g pid h d false (g.result s x)) l cur)) ∧
      ((IterativeAlphaBeta.absLoop
          (fun a alpha => abval g pid h d false (g.result s a) alpha ⊤) l best best bm).2 =
          some (pyMaxKeyGo (fun x => mval g pid h d false (g.result s x)) l cur) ∨
        ((IterativeAlphaBeta.absLoop
            (fun a alpha => abval g pid h d false (g.result s a) alpha ⊤) l best best bm).2 =
            none ∧
          (IterativeAlphaBeta.absLoop
            (fun a alpha => abval g pid h d false (g.result s a) alpha ⊤) l best best bm).1 =
            ⊥)) := by
  intro l
  induction l with
  | nil =>
    intro best bm cur hbest hbm
    refine ⟨hbest, ?_⟩
    rcases hbm with hbm | ⟨hbm, hb⟩
    · exact Or.inl hbm
    · exact Or.inr ⟨hbm, hb⟩
  | cons a rest ihl =>
    intro best bm cur hbest hbm
    rw [absLoop_cons, pyMaxKeyGo_cons]
    set K := fun x => mval g pid h d false (g.result s x) with hK
    set v := abval g pid h d false (g.result s a) best ⊤ with hv0
    by_cases hbt : best < ⊤
    · have hclamp : max best v = max best (K a) := by
        have hcl := abval_clamp g pid h d false (g.result s a) best ⊤ hbt
        rw [min_top_left, min_top_left] at hcl
        exact hcl
      by_cases hup : K cur < K a
      · have hupb : best < K a := hbest ▸ hup
        have hv : v = K a := by
          have h1 : max best (K a) = K a := max_eq_right (le_of_lt hupb)
          have h2 : max best v = K a := hclamp.trans h1
          rcases le_or_lt v best with hvb | hbv
          · rw [max_eq_left hvb] at h2
            exact absurd h2 (ne_of_lt hupb)
          · rw [max_eq_right (le_of_lt hbv)] at h2
            exact h2
        have hbv : best < v := by rw [hv]; exact hupb
        rw [if_pos hbv, if_pos hup, max_eq_right (le_of_lt hbv)]
        exact ihl v (some a) a hv (Or.inl rfl)
      · have hKa : K a ≤ best := hbest ▸ not_lt.1 hup
        have hvle : v ≤ best := by
          have h1 : max best (K a) = best := max_eq_left hKa
          have h2 : max best v = best := hclamp.trans h1
          exact sup_eq_left.1 h2
        rw [if_neg (not_lt.2 hvle), if_neg hup, max_eq_left hvle]
        exact ihl best bm cur hbest hbm
    · have hbtop : best = ⊤ := top_le_iff.1 (not_lt.1 hbt)
      have hvle : v ≤ best := hbtop ▸ le_top
      have hnup : ¬ K cur < K a := by
        have hKcur : K cur = best := hbest.symm
        rw [hKcur, hbtop]
        exact not_top_lt
      rw [if_neg (not_lt.2 hvle), if_neg hnup, max_eq_left hvle]
      exact ihl best bm cur hbest hbm

end C1Root

section C1Counts

variable {S A : Type}

theorem abCntMinLoop_cons (fv : S → ERat → ERat → ERat) (fc : S → ERat → ERat → Nat)
    (res : A → S) (alpha : ERat) (a : A) (rest : List A) (v beta : ERat) :
    abCntMinLoop fv fc res alpha (a :: rest) v beta =
      if min v (fv (res a) alpha beta) ≤ alpha then fc (res a) alpha beta
      else fc (res a) alpha beta + abCntMinLoop fv fc res alpha rest
        (min v (fv (res a) alpha beta)) (min beta (min v (fv (res a) alpha beta))) := rfl

theorem abCntMaxLoop_cons (fv : S → ERat → ERat → ERat) (fc : S → ERat → ERat → Nat)
    (res : A → S) (beta : ERat) (a : A) (rest : List A) (v alpha : ERat) :
    abCntMaxLoop fv fc res beta (a :: rest) v alpha =
      if beta ≤ max v (fv (res a) alpha beta) then fc (res a) alpha beta
      else fc (res a) alpha beta + abCntMaxLoop fv fc res beta rest
        (max v (fv (res a) alpha beta)) (max alpha (max v (fv (res a) alpha beta))) := rfl

theorem abCntMinLoop_le (fv : S → ERat → ERat → ERat) (fc : S → ERat → ERat → Nat)
    (res : A → S) (mc : S → Nat)
    (hchild : ∀ (t : S) (a2 b2 : ERat), fc t a2 b2 ≤ mc t) (alpha : ERat) :
    ∀ (l : List A) (v beta : ERat),
      abCntMinLoop fv fc res alpha l v beta ≤ (l.map (fun a => mc (res a))).sum := by
  intro l
  induction l with
  | nil => intro v beta; exact le_rfl
  | cons a rest ih =>
    intro v beta
    rw [abCntMinLoop_cons, List.map_cons, List.sum_cons]
    by_cases hle : min v (fv (res a) alpha beta) ≤ alpha
    · rw [if_pos hle]
      exact le_trans (hchild _ _ _) (Nat.le_add_right _ _)
    · rw [if_neg hle]
      exact Nat.add_le_add (hchild _ _ _) (ih _ _)

theorem abCntMaxLoop_le (fv : S → ERat → ERat → ERat) (fc : S → ERat → ERat → Nat)
    (res : A → S) (mc : S → Nat)
    (hchild : ∀ (t : S) (a2 b2 : ERat), fc t a2 b2 ≤ mc t) (beta : ERat) :
    ∀ (l : List A) (v alpha : ERat),
      abCntMaxLoop fv fc res beta l v alpha ≤ (l.map (fun a => mc (res a))).sum := by
  intro l
  induction l with
  | nil => intro v alpha; exact le_rfl
  | cons a rest ih =>
    intro v alpha
    rw [abCntMaxLoop_cons, List.map_cons, List.sum_cons]
    by_cases hle : beta ≤ max v (fv (res a) alpha beta)
    · rw [if_pos hle]
      exact le_trans (hchild _ _ _) (Nat.le_add_right _ _)
    · rw [if_neg hle]
      exact Nat.add_le_add (hchild _ _ _) (ih _ _)

/-- Alpha-beta pruning never visits more states than unpruned minimax at
the same depth, from any window. -/
theorem abCnt_le_mmCount (g : Game S A) (pid : Nat) (h : S → ℚ) :
    ∀ (d : Nat) (b : Bool) (s : S) (alpha beta : ERat),
      abCnt g pid h d b s alpha beta ≤ mmCount g d b s := by
  intro d
  induction d with
  | zero => intro b s alpha beta; cases b <;> exact le_rfl
  | succ d ihd =>
    intro b s alpha beta
    cases b with
    | false =>
      cases ht : g.terminal_test s with
      | true => simp [abCnt, mmCount, ht]
      | false =>
        simp only [abCnt, mmCount, ht, Bool.false_eq_true, if_false]
        exact Nat.add_le_add_left
          (abCntMinLoop_le (abval g pid h d true) (abCnt g pid h d true) (g.result s)
            (mmCount g d true) (fun t a2 b2 => ihd true t a2 b2) alpha (g.actions s) ⊤ beta) 1
    | true =>
      cases ht : g.terminal_test s with
      | true => simp [abCnt, mmCount, ht]
      | false =>
        simp only [abCnt, mmCount, ht, Bool.false_eq_true, if_false]
        exact Nat.add_le_add_left
          (abCntMaxLoop_le (abval g pid h d false) (abCnt g pid h d false) (g.result s)
            (mmCount g d false) (fun t a2 b2 => ihd false t a2 b2) beta (g.actions s) ⊥ alpha) 1

theorem absCntLoop_le (fv : A → ERat → ERat) (fc : A → ERat → Nat) (mc : A → Nat)
    (hchild : ∀ (a : A) (alpha : ERat), fc a alpha ≤ mc a) :
    ∀ (l : List A) (alpha : ERat), absCntLoop fv fc l alpha ≤ (l.map mc).sum := by
  intro l
  induction l with
  | nil => intro alpha; exact le_rfl
  | cons a rest ih =>
    intro alpha
    rw [List.map_cons, List.sum_cons]
    exact Nat.add_le_add (hchild _ _) (ih _)

end C1Counts

section C1Main

variable {S A : Type}

theorem C1_tail (g : Game S A) (pid : Nat) (h : S → ℚ) (s : S) (d' : Nat)
    (a : A) (rest : List A) (hacts : g.actions s = a :: rest)
    (hfull1 : (IterativeAlphaBeta.alpha_beta_searchFull g pid h s (d' + 1)).1 =
      mval g pid h d' false (g.result s
        (pyMaxKeyGo (fun x => mval g pid h d' false (g.result s x)) rest a)))
    (hfull2 : (IterativeAlphaBeta.alpha_beta_searchFull g pid h s (d' + 1)).2 =
        some (pyMaxKeyGo (fun x => mval g pid h d' false (g.result s x)) rest a) ∨
      ((IterativeAlphaBeta.alpha_beta_searchFull g pid h s (d' + 1)).2 = none ∧
        (IterativeAlphaBeta.alpha_beta_searchFull g pid h s (d' + 1)).1 = ⊥)) :
    (g.terminal_test s = false →
      (IterativeAlphaBeta.alpha_beta_searchFull g pid h s (d' + 1)).1 =
        CustomPlayerBase.max_value g pid h s (d' + 1)) ∧
    ((∃ (j : Nat) (b : A), (g.actions s)[j]? = some b ∧
        (⊥ : ERat) < CustomPlayerBase.min_value g pid h (g.result s b) (d' + 1 - 1)) →
      IterativeAlphaBeta.alpha_beta_search g pid h s (d' + 1) =
        CustomPlayerBase.minimax g pid h s (d' + 1) ∧
      IterativeAlphaBeta.alpha_beta_search g pid h s (d' + 1) ≠ none) := by
  constructor
  · intro ht
    rw [hfull1, CustomPlayerBase.max_value]
    have hunf : mval g pid h (d' + 1) true s =
        List.foldl (fun v x => max v (mval g pid h d' false (g.result s x))) ⊥ (a :: rest) := by
      simp [mval, ht, hacts]
    rw [hunf, List.foldl_cons, max_bot_left]
    exact (foldl_max_key_go (fun x => mval g pid h d' false (g.result s x)) rest a).symm
  · intro hex
    obtain ⟨j, b, hj, hb⟩ := hex
    have hb2 : (⊥ : ERat) < mval g pid h d' false (g.result s b) := by
      simpa [CustomPlayerBase.min_value, Nat.add_sub_cancel] using hb
    have hne : g.actions s ≠ [] := by rw [hacts]; exact List.cons_ne_nil a rest
    obtain ⟨k0, m0, hk0, hm0, hle0, -⟩ :=
      pyMaxKey_spec (fun x => mval g pid h d' false (g.result s x)) (g.actions s) hne
    have hm0go : m0 = pyMaxKeyGo (fun x => mval g pid h d' false (g.result s x)) rest a := by
      rw [hacts] at hm0
      have hsome : some (pyMaxKeyGo (fun x => mval g pid h d' false (g.result s x)) rest a) =
          some m0 := by rw [← hm0]; rfl
      exact (Option.some_inj.1 hsome).symm
    have hlt : (⊥ : ERat) < mval g pid h d' false (g.result s m0) :=
      lt_of_lt_of_le hb2 (hle0 j b hj)
    have hmmx : CustomPlayerBase.minimax g pid h s (d' + 1) =
        pyMaxKey (fun x => mval g pid h d' false (g.result s x)) (g.actions s) := by
      simp [CustomPlayerBase.minimax, CustomPlayerBase.min_value, Nat.add_sub_cancel]
    rcases hfull2 with h2 | ⟨h2n, h2bot⟩
    · constructor
      · rw [IterativeAlphaBeta.alpha_beta_search, h2, hmmx, hm0, hm0go]
      · rw [IterativeAlphaBeta.alpha_beta_search, h2]
        simp
    · exfalso
      rw [hfull1, ← hm0go] at h2bot
      rw [h2bot] at hlt
      exact lt_irrefl _ hlt

/-- C1 (amended): for every state and every depth at least 1, alpha-beta
pruning is value-preserving — the internal root `best_score` equals the
unpruned minimax value (`max_value` at the same depth, for non-terminal
states), and the returned move is identical to the move returned by the
unpruned `minimax` whenever some root action has a backed-up value above
`-inf`; pruning never visits more states than unpruned minimax.  (When
every root action backs up to `-inf`, `alpha_beta_search` returns `None`
while `minimax` returns the first action — see the counterexample.) -/
theorem C1_pruning_value_preserving (g : Game S A) (pid : Nat) (h : S → ℚ)
    (s : S) (d : Nat) (hd : 1 ≤ d) :
    (g.terminal_test s = false →
      (IterativeAlphaBeta.alpha_beta_searchFull g pid h s d).1 =
        CustomPlayerBase.max_value g pid h s d) ∧
    ((∃ (j : Nat) (b : A), (g.actions s)[j]? = some b ∧
        (⊥ : ERat) < CustomPlayerBase.min_value g pid h (g.result s b) (d - 1)) →
      IterativeAlphaBeta.alpha_beta_search g pid h s d =
        CustomPlayerBase.minimax g pid h s d ∧
      IterativeAlphaBeta.alpha_beta_search g pid h s d ≠ none) ∧
    abRootCount g pid h s d ≤ mmRootCount g pid h s d := by
  obtain ⟨d', rfl⟩ : ∃ d', d = d' + 1 := ⟨d - 1, (Nat.succ_pred_eq_of_pos hd).symm⟩
  have hd1 : d' + 1 - 1 = d' := rfl
  have habs : IterativeAlphaBeta.alpha_beta_searchFull g pid h s (d' + 1) =
      IterativeAlphaBeta.absLoop
        (fun x alpha => abval g pid h d' false (g.result s x) alpha ⊤)
        (g.actions s) ⊥ ⊥ none := by
    simp [IterativeAlphaBeta.alpha_beta_searchFull, IterativeAlphaBeta.ab_min_value, hd1]
  have hcount : abRootCount g pid h s (d' + 1) ≤ mmRootCount g pid h s (d' + 1) := by
    simp only [abRootCount, mmRootCount, hd1]
    exact Nat.add_le_add_left
      (absCntLoop_le _ _ (fun x => mmCount g d' false (g.result s x))
        (fun x alpha => abCnt_le_mmCount g pid h d' false (g.result s x) alpha ⊤)
        (g.actions s) ⊥) 1
  have hmain : (g.terminal_test s = false →
      (IterativeAlphaBeta.alpha_beta_searchFull g pid h s (d' + 1)).1 =
        CustomPlayerBase.max_value g pid h s (d' + 1)) ∧
      ((∃ (j : Nat) (b : A), (g.actions s)[j]? = some b ∧
          (⊥ : ERat) < CustomPlayerBase.min_value g pid h (g.result s b) (d' + 1 - 1)) →
        IterativeAlphaBeta.alpha_beta_search g pid h s (d' + 1) =
          CustomPlayerBase.minimax g pid h s (d' + 1) ∧
        IterativeAlphaBeta.alpha_beta_search g pid h s (d' + 1) ≠ none) := by
    cases hacts : g.actions s with
    | nil =>
      constructor
      · intro ht
        rw [habs, hacts]
        have h1 : (IterativeAlphaBeta.absLoop
            (fun x alpha => abval g pid h d' false (g.result s x) alpha ⊤)
            ([] : List A) ⊥ ⊥ none).1 = (⊥ : ERat) := rfl
        rw [h1, CustomPlayerBase.max_value]
        simp [mval, ht, hacts]
      · rintro ⟨j, b, hj, -⟩
        simp at hj
    | cons a rest =>
      have hv0 : abval g pid h d' false (g.result s a) ⊥ ⊤ =
          mval g pid h d' false (g.result s a) := by
        have hcl := abval_clamp g pid h d' false (g.result s a) ⊥ ⊤ ERat.bot_lt_top
        rw [min_top_left, min_top_left, max_bot_left, max_bot_left] at hcl
        exact hcl
      by_cases hpos : (⊥ : ERat) < mval g pid h d' false (g.result s a)
      · have hbv : (⊥ : ERat) < abval g pid h d' false (g.result s a) ⊥ ⊤ := by
          rw [hv0]; exact hpos
        have hstep : IterativeAlphaBeta.absLoop
            (fun x alpha => abval g pid h d' false (g.result s x) alpha ⊤)
            (a :: rest) ⊥ ⊥ none =
            IterativeAlphaBeta.absLoop
              (fun x alpha => abval g pid h d' false (g.result s x) alpha ⊤) rest
              (abval g pid h d' false (g.result s a) ⊥ ⊤)
              (abval g pid h d' false (g.result s a) ⊥ ⊤) (some a) := by
          rw [absLoop_cons, if_pos hbv, max_bot_left]
        obtain ⟨hval, hbm⟩ := absLoop_go g pid h d' s rest
          (abval g pid h d' false (g.result s a) ⊥ ⊤) (some a) a hv0 (Or.inl rfl)
        have htail := C1_tail g pid h s d' a rest hacts
          (by rw [habs, hacts, hstep]; exact hval)
          (by rw [habs, hacts, hstep]; exact hbm)
        rwa [hacts] at htail
      · have hKbot : mval g pid h d' false (g.result s a) = ⊥ :=
          le_bot_iff.1 (not_lt.1 hpos)
        have hv0b : abval g pid h d' false (g.result s a) ⊥ ⊤ = ⊥ := hv0.trans hKbot
        have hstep : IterativeAlphaBeta.absLoop
            (fun x alpha => abval g pid h d' false (g.result s x) alpha ⊤)
            (a :: rest) ⊥ ⊥ none =
            IterativeAlphaBeta.absLoop
              (fun x alpha => abval g pid h d' false (g.result s x) alpha ⊤) rest
              ⊥ ⊥ none := by
          rw [absLoop_cons, hv0b, max_bot_left, if_neg (lt_irrefl (⊥ : ERat))]
        obtain ⟨hval, hbm⟩ := absLoop_go g pid h d' s rest ⊥ none a hKbot.symm
          (Or.inr ⟨rfl, rfl⟩)
        have htail := C1_tail g pid h s d' a rest hacts
          (by rw [habs, hacts, hstep]; exact hval)
          (by rw [habs, hacts, hstep]; exact hbm)
        rwa [hacts] at htail
  exact ⟨hmain.1, hmain.2, hcount⟩

/-- C1 counterexample: on a non-terminal state at depth 1 where the only
action leads to a `-inf` terminal, unpruned minimax returns that action but
`alpha_beta_search` returns `None` (its strict `v > best_score` update never
fires against the `-inf` initial best), so the returned moves differ. -/
theorem C1_counterexample :
    GameAllLoss.terminal_test 0 = false ∧
    CustomPlayerBase.minimax GameAllLoss 0 hZero 0 1 = some 7 ∧
    IterativeAlphaBeta.alpha_beta_search GameAllLoss 0 hZero 0 1 = none ∧
    IterativeAlphaBeta.alpha_beta_search GameAllLoss 0 hZero 0 1 ≠
      CustomPlayerBase.minimax GameAllLoss 0 hZero 0 1 := by
  refine ⟨by decide, by decide, by decide, ?_⟩
  decide

/-- Witness for C1 at a concrete input where the guard holds. -/
theorem C1_pruning_value_preserving_witness :
    (1 : Nat) ≤ 1 ∧ GameWin.terminal_test 0 = false ∧
    (∃ (j : Nat) (b : Nat), (GameWin.actions 0)[j]? = some b ∧
      (⊥ : ERat) < CustomPlayerBase.min_value GameWin 0 hZero (GameWin.result 0 b) (1 - 1)) ∧
    (IterativeAlphaBeta.alpha_beta_searchFull GameWin 0 hZero 0 1).1 =
      CustomPlayerBase.max_value GameWin 0 hZero 0 1 ∧
    IterativeAlphaBeta.alpha_beta_search GameWin 0 hZero 0 1 =
      CustomPlayerBase.minimax GameWin 0 hZero 0 1 ∧
    abRootCount GameWin 0 hZero 0 1 ≤ mmRootCount GameWin 0 hZero 0 1 := by
  have hguard : ∃ (j : Nat) (b : Nat), (GameWin.actions 0)[j]? = some b ∧
      (⊥ : ERat) < CustomPlayerBase.min_value GameWin 0 hZero (GameWin.result 0 b) (1 - 1) :=
    ⟨1, 8, by decide, by decide⟩
  obtain ⟨h1, h2, h3⟩ := C1_pruning_value_preserving GameWin 0 hZero 0 1 (le_refl 1)
  exact ⟨le_refl 1, by decide, hguard, h1 (by decide), (h2 hguard).1, h3⟩

end C1Main

/-! ### MCTS: backpropagation characterization and arena invariants -/

section BackpropSpec

variable {S A : Type}

theorem lt_length_of_getElem? {α : Type} {l : List α} {j : Nat} {a : α}
    (h : l[j]? = some a) : j < l.length :=
  (List.getElem?_eq_some.1 h).1

theorem pyFlip_den (r : ℚ) : (pyFlip r).den = 1 := by
  unfold pyFlip
  split <;> exact rfl

theorem flipIter_succ (k : Nat) (r : ℚ) : flipIter (k + 1) r = flipIter k (pyFlip r) := rfl

theorem ArenaInv.pdec {sigma : List (Node S A)} (h : ArenaInv sigma) : PDec sigma :=
  fun j n p h1 h2 => (h j n p h1 h2).1

/-- `PDec` only looks at parents, which a wins/visits update preserves. -/
theorem pdec_set {sigma : List (Node S A)} {i : Nat} {n n1 : Node S A}
    (hpd : PDec sigma) (hn : sigma[i]? = some n) (hpar : n1.parent = n.parent) :
    PDec (sigma.set i n1) := by
  intro j m q hm hq
  by_cases hij : i = j
  · subst hij
    rw [List.getElem?_set_self (lt_length_of_getElem? hn)] at hm
    cases hm
    exact hpd i n q hn (hpar ▸ hq)
  · rw [List.getElem?_set_ne hij] at hm
    exact hpd j m q hm hq

/-- `bpChain` only looks at parents. -/
theorem bpChain_congr {sigma sigma2 : List (Node S A)}
    (hpar : ∀ j : Nat, (sigma2[j]?).map Node.parent = (sigma[j]?).map Node.parent) :
    ∀ (fuel i : Nat), bpChain sigma2 fuel i = bpChain sigma fuel i := by
  intro fuel
  induction fuel with
  | zero => intro i; rfl
  | succ f ih =>
    intro i
    have h := hpar i
    cases h2 : sigma2[i]? with
    | none =>
      rw [h2] at h
      cases h1 : sigma[i]? with
      | none => simp [bpChain, h1, h2]
      | some m => rw [h1] at h; simp at h
    | some m2 =>
      rw [h2] at h
      cases h1 : sigma[i]? with
      | none => rw [h1] at h; simp at h
      | some m =>
        rw [h1] at h
        simp at h
        cases hp : m.parent with
        | none => simp [bpChain, h1, h2, hp, h, hp ▸ h]
        | some p => simp [bpChain, h1, h2, hp, h ▸ hp, ih]

/-- Under decreasing parents, every element of the chain from `p` is `≤ p`. -/
theorem bpChain_le {sigma : List (Node S A)} (hpd : PDec sigma) :
    ∀ (fuel p j : Nat), j ∈ bpChain sigma fuel p → j ≤ p := by
  intro fuel
  induction fuel with
  | zero => intro p j hj; simp [bpChain] at hj
  | succ f ih =>
    intro p j hj
    rw [bpChain] at hj
    rcases List.mem_cons.1 hj with hj | hj
    · exact hj.le
    · cases h1 : sigma[p]? with
      | none => simp [h1] at hj
      | some n =>
        cases hp : n.parent with
        | none => simp [h1, hp] at hj
        | some q =>
          simp only [h1, hp] at hj
          have hq : q < p := hpd p n q h1 hp
          exact le_trans (ih q j hj) (le_of_lt hq)

/-- Full characterization of `Node.backpropagate`: with decreasing parents,
a valid start node, an integral reward and enough fuel it succeeds, and it
adds `flipIter k reward` to the wins and 1 to the visits of exactly the
k-th node of the parent chain, leaving every other node untouched. -/
theorem backprop_spec :
    ∀ (i : Nat) (sigma : List (Node S A)) (r : ℚ) (fuel : Nat),
      PDec sigma → i < sigma.length → r.den = 1 → i < fuel →
      ∃ sigma2, Node.backpropagate sigma i r fuel = some sigma2 ∧
        sigma2.length = sigma.length ∧
        (∀ (k j : Nat), (bpChain sigma fuel i)[k]? = some j →
          ∃ (n n2 : Node S A), sigma[j]? = some n ∧ sigma2[j]? = some n2 ∧
            n2 = { n with wins := n.wins + flipIter k r,
                          tot_plays := n.tot_plays + 1 }) ∧
        (∀ j : Nat, j ∉ bpChain sigma fuel i → sigma2[j]? = sigma[j]?) := by
  intro i
  induction i using Nat.strong_induction_on with
  | _ i IH =>
    intro sigma r fuel hpd hi hr hfuel
    cases fuel with
    | zero => exact absurd hfuel (Nat.not_lt_zero i)
    | succ f =>
      obtain ⟨n, hn⟩ : ∃ n, sigma[i]? = some n := by
        cases h : sigma[i]? with
        | none => rw [List.getElem?_eq_none_iff] at h; omega
        | some m => exact ⟨m, rfl⟩
      have hx : pyXor1 r = some (pyFlip r) := by simp [pyXor1, hr]
      cases hpar : n.parent with
      | none =>
        have hbp : Node.backpropagate sigma i r (f + 1) =
            some (sigma.set i { n with wins := n.wins + r,
                                       tot_plays := n.tot_plays + 1 }) := by
          rw [Node.backpropagate]
          simp only [hn, hx, hpar]
        have hchain : bpChain sigma (f + 1) i = [i] := by
          simp [bpChain, hn, hpar]
        refine ⟨_, hbp, by simp, ?_, ?_⟩
        · intro k j hk
          rw [hchain] at hk
          cases k with
          | zero =>
            simp at hk
            subst hk
            exact ⟨n, _, hn, List.getElem?_set_self hi, rfl⟩
          | succ k' => simp at hk
        · intro j hj
          rw [hchain] at hj
          simp at hj
          exact List.getElem?_set_ne (fun hij => hj hij.symm)
      | some p =>
        have hp : p < i := hpd i n p hn hpar
        set n1 : Node S A := { n with wins := n.wins + r, tot_plays := n.tot_plays + 1 }
          with hn1
        have hpd1 : PDec (sigma.set i n1) := pdec_set hpd hn rfl
        have hparmap : ∀ j : Nat,
            ((sigma.set i n1)[j]?).map Node.parent = (sigma[j]?).map Node.parent := by
          intro j
          by_cases hij : i = j
          · subst hij
            rw [List.getElem?_set_self hi, hn]
            rfl
          · rw [List.getElem?_set_ne hij]
        obtain ⟨sigma2, hbp2, hlen2, hon2, hoff2⟩ :=
          IH p hp (sigma.set i n1) (pyFlip r) f hpd1 (by simpa using lt_trans hp hi)
            (pyFlip_den r) (by omega)
        have hbp : Node.backpropagate sigma i r (f + 1) = some sigma2 := by
          rw [Node.backpropagate]
          simp only [hn, hx, hpar]
          rw [← hpar]
          exact hbp2
        have hcongr : bpChain (sigma.set i n1) f p = bpChain sigma f p :=
          bpChain_congr hparmap f p
        have hchain : bpChain sigma (f + 1) i = i :: bpChain sigma f p := by
          simp [bpChain, hn, hpar]
        have hinotin : i ∉ bpChain sigma f p := by
          intro hmem
          exact absurd (bpChain_le hpd f p i hmem) (by omega)
        refine ⟨sigma2, hbp, by rw [hlen2]; simp, ?_, ?_⟩
        · intro k j hk
          rw [hchain] at hk
          cases k with
          | zero =>
            simp at hk
            subst hk
            have hsig2i : sigma2[i]? = (sigma.set i n1)[i]? := by
              apply hoff2
              rw [hcongr]
              exact hinotin
            rw [List.getElem?_set_self hi] at hsig2i
            exact ⟨n, n1, hn, hsig2i, rfl⟩
          | succ k' =>
            rw [List.getElem?_cons_succ] at hk
            obtain ⟨n', n2, hn', hn2, heq⟩ := hon2 k' j (by rw [hcongr]; exact hk)
            have hji : j ≠ i := by
              have hjp : j ≤ p := bpChain_le hpd f p j (List.getElem?_mem hk)
              omega
            rw [List.getElem?_set_ne (fun hij => hji hij.symm)] at hn'
            exact ⟨n', n2, hn', hn2, by rw [heq, flipIter_succ]⟩
        · intro j hj
          rw [hchain] at hj
          simp at hj
          obtain ⟨hji, hjc⟩ := hj
          rw [hoff2 j (by rw [hcongr]; exact hjc)]
          exact List.getElem?_set_ne (fun hij => hji hij.symm)

end BackpropSpec

section ArenaLemmas

variable {S A : Type}

theorem bpChain_head (sigma : List (Node S A)) (f i : Nat) :
    (bpChain sigma (f + 1) i)[0]? = some i := by
  rw [bpChain]
  exact List.getElem?_cons_zero

theorem bpChain_next {sigma : List (Node S A)} (hpd : PDec sigma) :
    ∀ (fuel i k j : Nat) (nj : Node S A) (q : Nat), i < fuel →
      (bpChain sigma fuel i)[k]? = some j → sigma[j]? = some nj →
      nj.parent = some q → (bpChain sigma fuel i)[k + 1]? = some q := by
  intro fuel
  induction fuel with
  | zero => intro i k j nj q hf; exact absurd hf (Nat.not_lt_zero i)
  | succ f ih =>
    intro i k j nj q hf hk hj hq
    cases k with
    | zero =>
      rw [bpChain_head] at hk
      have hij : i = j := by simpa using hk
      subst hij
      rw [bpChain]
      simp only [hj, hq, List.getElem?_cons_succ]
      have hqj : q < i := hpd i nj q hj hq
      have hf2 : 0 < f := by omega
      obtain ⟨f2, rfl⟩ : ∃ f2, f = f2 + 1 := ⟨f - 1, (Nat.succ_pred_eq_of_pos hf2).symm⟩
      exact bpChain_head sigma f2 q
    | succ k2 =>
      rw [bpChain] at hk
      rw [List.getElem?_cons_succ] at hk
      cases h1 : sigma[i]? with
      | none => simp [h1] at hk
      | some ni =>
        cases hp : ni.parent with
        | none => simp [h1, hp] at hk
        | some p =>
          simp only [h1, hp] at hk
          have hpi : p < i := hpd i ni p h1 hp
          have := ih p k2 j nj q (by omega) hk hj hq
          rw [bpChain]
          simp only [h1, hp, List.getElem?_cons_succ]
          exact this

theorem backprop_den {sigma sigma2 : List (Node S A)} {i : Nat} {r : ℚ} {fuel : Nat}
    (h : Node.backpropagate sigma i r fuel = some sigma2) : r.den = 1 := by
  cases fuel with
  | zero => simp [Node.backpropagate] at h
  | succ f =>
    rw [Node.backpropagate] at h
    cases h1 : sigma[i]? with
    | none => rw [h1] at h; simp at h
    | some n =>
      rw [h1] at h
      by_cases hd : r.den = 1
      · exact hd
      · rw [show pyXor1 r = none from by simp [pyXor1, hd]] at h
        simp at h

/-- Backpropagation preserves the arena invariant and changes each node's
visit count by at most one. -/
theorem backprop_preserves {sigma : List (Node S A)} {i : Nat} {r : ℚ} {fuel : Nat}
    (hinv : ArenaInv sigma) (hi : i < sigma.length) (hr : r.den = 1) (hf : i < fuel) :
    ∃ sigma2, Node.backpropagate sigma i r fuel = some sigma2 ∧
      sigma2.length = sigma.length ∧ ArenaInv sigma2 ∧
      (∀ (j : Nat) (n : Node S A), sigma[j]? = some n →
        ∃ n2, sigma2[j]? = some n2 ∧ n2.parent = n.parent ∧
          n.tot_plays ≤ n2.tot_plays ∧ n2.tot_plays ≤ n.tot_plays + 1) := by
  obtain ⟨sigma2, hbp, hlen, hon, hoff⟩ := backprop_spec i sigma r fuel hinv.pdec hi hr hf
  have hpoint : ∀ (j : Nat) (n : Node S A), sigma[j]? = some n →
      ∃ n2, sigma2[j]? = some n2 ∧ n2.parent = n.parent ∧
        n.tot_plays ≤ n2.tot_plays ∧ n2.tot_plays ≤ n.tot_plays + 1 := by
    intro j n hj
    by_cases hm : j ∈ bpChain sigma fuel i
    · obtain ⟨k, hk⟩ : ∃ k : Nat, (bpChain sigma fuel i)[k]? = some j :=
        List.mem_iff_getElem?.1 hm
      obtain ⟨n', n2, hn', hn2, heq⟩ := hon k j hk
      rw [hj] at hn'
      cases hn'
      exact ⟨n2, hn2, by rw [heq], by rw [heq]; exact Nat.le_succ _, by rw [heq]⟩
    · exact ⟨n, by rw [hoff j hm]; exact hj, rfl, le_rfl, by omega⟩
  refine ⟨sigma2, hbp, hlen, ?_, hpoint⟩
  intro j n2 q hj2 hq2
  have hjlt : j < sigma.length := by rw [← hlen]; exact lt_length_of_getElem? hj2
  obtain ⟨n, hn⟩ : ∃ n, sigma[j]? = some n := by
    cases hx : sigma[j]? with
    | none => rw [List.getElem?_eq_none_iff] at hx; omega
    | some m => exact ⟨m, rfl⟩
  by_cases hm : j ∈ bpChain sigma fuel i
  · obtain ⟨k, hk⟩ : ∃ k : Nat, (bpChain sigma fuel i)[k]? = some j :=
      List.mem_iff_getElem?.1 hm
    obtain ⟨n', n2', hn', hn2', heq⟩ := hon k j hk
    rw [hn] at hn'
    cases hn'
    rw [hj2] at hn2'
    cases hn2'
    have hqn : n.parent = some q := by
      have : n2.parent = n.parent := by rw [heq]
      rw [← this]; exact hq2
    obtain ⟨hqj, m, hmq, hmono⟩ := hinv j n q hn hqn
    have hknext : (bpChain sigma fuel i)[k + 1]? = some q :=
      bpChain_next hinv.pdec fuel i k j n q hf hk hn hqn
    obtain ⟨m', m2, hm', hm2, heqm⟩ := hon (k + 1) q hknext
    rw [hmq] at hm'
    cases hm'
    refine ⟨hqj, m2, hm2, ?_⟩
    rw [heq, heqm]
    simpa using Nat.succ_le_succ hmono
  · have hsame : sigma2[j]? = sigma[j]? := hoff j hm
    rw [hj2] at hsame
    rw [hn] at hsame
    cases hsame
    obtain ⟨hqj, m, hmq, hmono⟩ := hinv j n2 q hn hq2
    obtain ⟨m2, hm2, -, hmle, -⟩ := hpoint q m hmq
    exact ⟨hqj, m2, hm2, le_trans hmono hmle⟩

end ArenaLemmas

section EngineInv

variable {S A : Type}

theorem arenaInv_append {sigma : List (Node S A)} (hinv : ArenaInv sigma)
    (x : Node S A) (hx : x.parent = none) : ArenaInv (sigma ++ [x]) := by
  intro j n q hj hq
  rcases Nat.lt_trichotomy j sigma.length with hjl | hjl | hjl
  · rw [List.getElem?_append_left hjl] at hj
    obtain ⟨hqj, m, hm, hmono⟩ := hinv j n q hj hq
    exact ⟨hqj, m, by rw [List.getElem?_append_left (lt_trans hqj hjl)]; exact hm, hmono⟩
  · subst hjl
    rw [List.getElem?_concat_length] at hj
    cases hj
    rw [hx] at hq
    cases hq
  · have : (sigma ++ [x])[j]? = none := by
      rw [List.getElem?_eq_none_iff]
      simp
      omega
    rw [this] at hj
    cases hj

theorem run_mctsInit_nodes [DecidableEq S] (g : Game S A) (pid : Nat)
    (sigma0 : List (Node S A)) (ctx : Option (Nat ⊕ S)) (s : S) :
    (run_mctsInit g pid sigma0 ctx s).1 = sigma0 ++ [Node.init g s none pid] := by
  rcases ctx with _ | (c | s2)
  · rfl
  · rw [run_mctsInit]
    split
    all_goals try rfl
    all_goals split
    all_goals rfl
  · rfl

/-- Setting a node to a sibling-equal record with the same parent and visit
count, then appending a fresh zero-visit child of it, preserves the arena
invariant and every old node's visit count. -/
theorem setAppend_effects {sigma : List (Node S A)} {i : Nat} {n nup x : Node S A}
    (hinv : ArenaInv sigma) (hn : sigma[i]? = some n)
    (hpar : nup.parent = n.parent) (htot : nup.tot_plays = n.tot_plays)
    (hxpar : x.parent = some i) (hxtot : x.tot_plays = 0) :
    ArenaInv ((sigma.set i nup) ++ [x]) ∧
    sigma.length ≤ ((sigma.set i nup) ++ [x]).length ∧
    (∀ (j : Nat) (m : Node S A), sigma[j]? = some m →
      ∃ m2, ((sigma.set i nup) ++ [x])[j]? = some m2 ∧ m2.tot_plays = m.tot_plays) := by
  have hil : i < sigma.length := lt_length_of_getElem? hn
  have hsetlen : (sigma.set i nup).length = sigma.length := by simp
  have hpoint : ∀ (j : Nat) (m : Node S A), sigma[j]? = some m →
      ∃ m2, ((sigma.set i nup) ++ [x])[j]? = some m2 ∧ m2.tot_plays = m.tot_plays := by
    intro j m hm
    have hjl : j < sigma.length := lt_length_of_getElem? hm
    have happ : ((sigma.set i nup) ++ [x])[j]? = (sigma.set i nup)[j]? :=
      List.getElem?_append_left (by rw [hsetlen]; exact hjl)
    by_cases hij : i = j
    · subst hij
      rw [hn] at hm
      cases hm
      exact ⟨nup, by rw [happ, List.getElem?_set_self hil], htot⟩
    · exact ⟨m, by rw [happ, List.getElem?_set_ne hij]; exact hm, rfl⟩
  refine ⟨?_, by simp, hpoint⟩
  intro j m q hm hq
  rcases Nat.lt_trichotomy j sigma.length with hjl | hjl | hjl
  · rw [List.getElem?_append_left (by rw [hsetlen]; exact hjl)] at hm
    have hparq : ∃ m0, sigma[j]? = some m0 ∧ m0.parent = some q ∧
        m.tot_plays = m0.tot_plays := by
      by_cases hij : i = j
      · subst hij
        rw [List.getElem?_set_self hil] at hm
        cases hm
        exact ⟨n, hn, by rw [← hpar]; exact hq, htot⟩
      · rw [List.getElem?_set_ne hij] at hm
        exact ⟨m, hm, hq, rfl⟩
    obtain ⟨m0, hm0, hq0, htot0⟩ := hparq
    obtain ⟨hqj, mq, hmq, hmono⟩ := hinv j m0 q hm0 hq0
    obtain ⟨mq2, hmq2, htotq⟩ := hpoint q mq hmq
    exact ⟨hqj, mq2, hmq2, by rw [htot0, htotq]; exact hmono⟩
  · have hjx : ((sigma.set i nup) ++ [x])[j]? = some x := by
      rw [show j = (sigma.set i nup).length from by rw [hsetlen]; exact hjl]
      exact List.getElem?_concat_length _ _
    rw [hjx] at hm
    cases hm
    rw [hxpar] at hq
    cases hq
    obtain ⟨nup2, hnup2, htot2⟩ := hpoint i n hn
    refine ⟨hjl ▸ hil, nup2, hnup2, by rw [hxtot]; exact Nat.zero_le _⟩
  · have : ((sigma.set i nup) ++ [x])[j]? = none := by
      rw [List.getElem?_eq_none_iff]
      simp
      omega
    rw [this] at hm
    cases hm

theorem expand_effects {g : Game S A} {sigma : List (Node S A)} {i : Nat}
    {sigma2 : List (Node S A)} {cid : Nat}
    (hinv : ArenaInv sigma) (hexp : Node.expand g sigma i = some (sigma2, cid)) :
    ArenaInv sigma2 ∧ sigma.length ≤ sigma2.length ∧
    (∀ (j : Nat) (n : Node S A), sigma[j]? = some n →
      ∃ n2, sigma2[j]? = some n2 ∧ n2.tot_plays = n.tot_plays) := by
  cases hn : sigma[i]? with
  | none => simp [Node.expand, hn] at hexp
  | some n =>
    cases hl : n.untested_actions.getLast? with
    | none => simp [Node.expand, hn, hl] at hexp
    | some act =>
      simp only [Node.expand, hn, hl, Option.some_inj, Prod.mk.injEq] at hexp
      obtain ⟨hsig, -⟩ := hexp
      rw [← hsig]
      exact setAppend_effects hinv hn rfl rfl rfl rfl

theorem select_node_effects {g : Game S A} :
    ∀ (fuel : Nat) (sigma : List (Node S A)) (i : Nat)
      (sigma1 : List (Node S A)) (leaf : Nat),
      ArenaInv sigma → select_node g fuel sigma i = some (sigma1, leaf) →
      ArenaInv sigma1 ∧ sigma.length ≤ sigma1.length ∧
      (∀ (j : Nat) (n : Node S A), sigma[j]? = some n →
        ∃ n2, sigma1[j]? = some n2 ∧ n2.tot_plays = n.tot_plays) := by
  intro fuel
  induction fuel with
  | zero =>
    intro sigma i sigma1 leaf hinv hsel
    rw [select_node] at hsel
    cases hsel
  | succ f ih =>
    intro sigma i sigma1 leaf hinv hsel
    cases hn : sigma[i]? with
    | none => simp [select_node, hn] at hsel
    | some n =>
      cases hterm : Node.is_terminal g n with
      | true =>
        simp only [select_node, hn, hterm, if_true, Option.some_inj,
          Prod.mk.injEq] at hsel
        obtain ⟨rfl, -⟩ := hsel
        exact ⟨hinv, le_rfl, fun j m hj => ⟨m, hj, rfl⟩⟩
      | false =>
        cases hexp : Node.is_expanded n with
        | true =>
          cases hso : Node.select sigma i with
          | none => simp [select_node, hn, hterm, hexp, hso] at hsel
          | some j =>
            simp only [select_node, hn, hterm, hexp, Bool.false_eq_true, if_false,
              if_true, hso] at hsel
            exact ih sigma j sigma1 leaf hinv hsel
        | false =>
          cases hcid : Node.expand g sigma i with
          | none => simp [select_node, hn, hterm, hexp, hcid] at hsel
          | some pr =>
            simp only [select_node, hn, hterm, hexp, Bool.false_eq_true, if_false,
              hcid, Option.some_inj] at hsel
            rw [hsel] at hcid
            exact expand_effects hinv hcid

theorem gba_effects {g : Game S A} {chi : Nat} {sigma : List (Node S A)} {i : Nat}
    {act : A} {ref : Nat ⊕ S} {sigma3 : List (Node S A)}
    (hinv : ArenaInv sigma)
    (hgba : Node.get_best_action g chi sigma i = some ((act, ref), sigma3)) :
    ArenaInv sigma3 ∧ sigma.length ≤ sigma3.length ∧
    (∀ (j : Nat) (n : Node S A), sigma[j]? = some n →
      ∃ n2, sigma3[j]? = some n2 ∧ n2.tot_plays = n.tot_plays) := by
  cases hn : sigma[i]? with
  | none => simp [Node.get_best_action, hn] at hgba
  | some n =>
    simp only [Node.get_best_action, hn] at hgba
    split at hgba
    · split at hgba
      · cases hgba
      · simp only [Option.some_inj, Prod.mk.injEq] at hgba
        obtain ⟨-, hsig⟩ := hgba
        rw [← hsig]
        exact setAppend_effects hinv hn rfl rfl rfl rfl
    · split at hgba
      · cases hgba
      · split at hgba
        · simp only [Option.some_inj, Prod.mk.injEq] at hgba
          obtain ⟨-, hsig⟩ := hgba
          rw [← hsig]
          exact ⟨hinv, le_rfl, fun j m hj => ⟨m, hj, rfl⟩⟩
        · cases hgba

theorem sever_effects {sigma : List (Node S A)} {cid : Nat} {cn : Node S A}
    (hinv : ArenaInv sigma) (hcn : sigma[cid]? = some cn) :
    ArenaInv (sigma.set cid { cn with parent := none }) ∧
    (∀ (j : Nat) (n : Node S A), sigma[j]? = some n →
      ∃ n2, (sigma.set cid { cn with parent := none })[j]? = some n2 ∧
        n2.tot_plays = n.tot_plays) := by
  have hcl : cid < sigma.length := lt_length_of_getElem? hcn
  have hpoint : ∀ (j : Nat) (n : Node S A), sigma[j]? = some n →
      ∃ n2, (sigma.set cid { cn with parent := none })[j]? = some n2 ∧
        n2.tot_plays = n.tot_plays := by
    intro j m hm
    by_cases hij : cid = j
    · subst hij
      rw [hcn] at hm
      cases hm
      exact ⟨_, List.getElem?_set_self hcl, rfl⟩
    · exact ⟨m, by rw [List.getElem?_set_ne hij]; exact hm, rfl⟩
  refine ⟨?_, hpoint⟩
  intro j m q hm hq
  by_cases hij : cid = j
  · subst hij
    rw [List.getElem?_set_self hcl] at hm
    cases hm
    cases hq
  · rw [List.getElem?_set_ne hij] at hm
    obtain ⟨hqj, mq, hmq, hmono⟩ := hinv j m q hm hq
    obtain ⟨mq2, hmq2, htotq⟩ := hpoint q mq hmq
    exact ⟨hqj, mq2, hmq2, by rw [htotq]; exact hmono⟩

/-- One loop iteration keeps the arena invariant and the root index, can only
grow the arena, and bumps each old node's visit count by at most one. -/
theorem mctsIter_effects {g : Game S A} {pid : Nat} {rho : Nat → Nat} {chi : Nat}
    {fuel : Nat} {st st2 : EState S A}
    (hinv : ArenaInv st.nodes)
    (hiter : mctsIter g pid rho chi fuel st = some st2) :
    ArenaInv st2.nodes ∧ st2.rootId = st.rootId ∧
    st.nodes.length ≤ st2.nodes.length ∧
    (∀ (j : Nat) (n : Node S A), st.nodes[j]? = some n →
      ∃ n2, st2.nodes[j]? = some n2 ∧ n2.tot_plays ≤ n.tot_plays + 1) := by
  cases hsel : select_node g fuel st.nodes st.rootId with
  | none => simp [mctsIter, hsel] at hiter
  | some pr =>
    obtain ⟨sigma1, leaf⟩ := pr
    obtain ⟨hinv1, hlen1, hpt1⟩ :=
      select_node_effects fuel st.nodes st.rootId sigma1 leaf hinv hsel
    cases hln : sigma1[leaf]? with
    | none => simp [mctsIter, hsel, hln] at hiter
    | some leafNode =>
      cases hro : Node.roll_out g rho leafNode fuel with
      | none => simp [mctsIter, hsel, hln, hro] at hiter
      | some rp =>
        obtain ⟨result0, final_player⟩ := rp
        cases hfl : (if final_player = pid then pyXor1 result0 else some result0) with
        | none => simp [mctsIter, hsel, hln, hro, hfl] at hiter
        | some result1 =>
          cases hbp : Node.backpropagate sigma1 leaf result1 (sigma1.length + 1) with
          | none => simp [mctsIter, hsel, hln, hro, hfl, hbp] at hiter
          | some sigma2 =>
            have hleaf : leaf < sigma1.length := lt_length_of_getElem? hln
            obtain ⟨s2, hbp2, hlen2, hinv2, hpt2⟩ :=
              backprop_preserves hinv1 hleaf (backprop_den hbp)
                (Nat.lt_succ_of_lt hleaf)
            rw [hbp] at hbp2
            obtain rfl := Option.some_inj.mp hbp2
            cases hgba : Node.get_best_action g chi sigma2 st.rootId with
            | none => simp [mctsIter, hsel, hln, hro, hfl, hbp, hgba] at hiter
            | some pr2 =>
              obtain ⟨⟨best_action, ref⟩, sigma3⟩ := pr2
              obtain ⟨hinv3, hlen3, hpt3⟩ := gba_effects hinv2 hgba
              cases ref with
              | inr s0 => simp [mctsIter, hsel, hln, hro, hfl, hbp, hgba] at hiter
              | inl cid =>
                cases hcn : sigma3[cid]? with
                | none =>
                  simp [mctsIter, hsel, hln, hro, hfl, hbp, hgba, hcn] at hiter
                | some cn =>
                  obtain ⟨hinv4, hpt4⟩ := sever_effects hinv3 hcn
                  simp only [mctsIter, hsel, hln, hro, hfl, hbp, hgba, hcn,
                    Option.some_inj] at hiter
                  rw [← hiter]
                  refine ⟨hinv4, rfl, ?_, ?_⟩
                  · have h4 : (sigma3.set cid { cn with parent := none }).length =
                        sigma3.length := by simp
                    show st.nodes.length ≤
                      (sigma3.set cid { cn with parent := none }).length
                    omega
                  · intro j n hj
                    obtain ⟨n1, hn1, ht1⟩ := hpt1 j n hj
                    obtain ⟨n2, hn2, -, -, ht2⟩ := hpt2 j n1 hn1
                    obtain ⟨n3, hn3, ht3⟩ := hpt3 j n2 hn2
                    obtain ⟨n4, hn4, ht4⟩ := hpt4 j n3 hn3
                    exact ⟨n4, hn4, by omega⟩

theorem arenaInv_nil : ArenaInv ([] : List (Node S A)) := by
  intro j n p hj hp
  simp at hj

/-- Every reachable engine state satisfies the arena invariant. -/
theorem reach_inv [DecidableEq S] {g : Game S A} {pid : Nat} {P : Nat → Nat → Nat}
    {X : Nat → Nat} {fuel : Nat} {st : EState S A}
    (h : Reach g pid P X fuel st) : ArenaInv st.nodes := by
  induction h with
  | start s => exact arenaInv_append arenaInv_nil (Node.init g s none pid) rfl
  | step st st2 k hst hiter ih => exact (mctsIter_effects ih hiter).1
  | turn st s hst ih =>
    have hnodes : (newTurn g pid st s).nodes = st.nodes ++ [Node.init g s none pid] :=
      run_mctsInit_nodes g pid st.nodes st.context s
    rw [hnodes]
    exact arenaInv_append ih (Node.init g s none pid) rfl

end EngineInv

section C2Main

variable {S A : Type}

/-- C2 (amended): over any run of `N` loop iterations of `run_mcts` from an
arena satisfying the parent invariant, the root index is preserved and the
root's visit count grows by AT MOST `N` — not exactly `N`: severing the
published best child's parent link (`best_child_node.parent = None`) makes
every later backpropagation that passes through that child stop there, so
the root can be credited fewer than `N` visits. -/
theorem C2_root_visits {g : Game S A} {pid : Nat} {P : Nat → Nat → Nat}
    {X : Nat → Nat} {fuel : Nat} :
    ∀ (N k : Nat) (st st2 : EState S A), ArenaInv st.nodes →
      runIters g pid P X fuel k N st = some st2 →
      st2.rootId = st.rootId ∧
      ∀ n : Node S A, st.nodes[st.rootId]? = some n →
        ∃ n2, st2.nodes[st.rootId]? = some n2 ∧
          n2.tot_plays ≤ n.tot_plays + N := by
  intro N
  induction N with
  | zero =>
    intro k st st2 hinv hrun
    simp only [runIters, Option.some_inj] at hrun
    subst hrun
    exact ⟨rfl, fun n hn => ⟨n, hn, by omega⟩⟩
  | succ m ih =>
    intro k st st2 hinv hrun
    cases hit : mctsIter g pid (P k) (X k) fuel st with
    | none => simp [runIters, hit] at hrun
    | some st1 =>
      simp only [runIters, hit] at hrun
      obtain ⟨hinv1, hroot1, hlen1, hpt1⟩ := mctsIter_effects hinv hit
      obtain ⟨hroot2, hpt2⟩ := ih (k + 1) st1 st2 hinv1 hrun
      refine ⟨by rw [hroot2, hroot1], ?_⟩
      intro n hn
      obtain ⟨n1, hn1, ht1⟩ := hpt1 st.rootId n hn
      obtain ⟨n2, hn2, ht2⟩ := hpt2 n1 (by rw [hroot1]; exact hn1)
      rw [hroot1] at hn2
      exact ⟨n2, hn2, by omega⟩

/-- C2 counterexample: on `GLine`, starting from a fresh root with 0 visits,
after `N = 2` completed iterations the root (index 0) has only 1 visit, not
2: the second backpropagation stopped at node 1, whose parent link had been
severed when it was published. -/
theorem C2_counterexample :
    (initState GLine 0 0).nodes.map Node.tot_plays = [0] ∧
    (runGLine 2).map (fun st => (st.rootId, st.nodes.map Node.tot_plays)) =
      some (0, [1, 2, 1]) := by decide

theorem C2_root_visits_witness :
    ∃ st2 : EState Nat Nat, runGLine 2 = some st2 ∧ st2.rootId = 0 ∧
      ∀ n : Node Nat Nat,
        (initState GLine 0 0).nodes[(initState GLine 0 0).rootId]? = some n →
        ∃ n2, st2.nodes[(initState GLine 0 0).rootId]? = some n2 ∧
          n2.tot_plays ≤ n.tot_plays + 2 := by
  have hs : (runGLine 2).isSome = true := by decide
  refine ⟨(runGLine 2).get hs, (Option.some_get hs).symm, ?_⟩
  exact C2_root_visits 2 0 (initState GLine 0 0) ((runGLine 2).get hs)
    (arenaInv_append arenaInv_nil (Node.init GLine 0 none 0) rfl)
    (Option.some_get hs).symm

end C2Main

section C5Main

variable {S A : Type}

theorem bpStop_of_chain {sigma : List (Node S A)} :
    ∀ (fuel i k j : Nat) (n : Node S A),
      (bpChain sigma fuel i)[k]? = some j → sigma[j]? = some n →
      n.parent = none → bpStop sigma fuel i = some j := by
  intro fuel
  induction fuel with
  | zero => intro i k j n hk; simp [bpChain] at hk
  | succ f ih =>
    intro i k j n hk hj hp
    cases k with
    | zero =>
      rw [bpChain_head] at hk
      have hij : i = j := Option.some_inj.mp hk
      subst hij
      rw [bpStop]
      simp only [hj, hp]
    | succ k2 =>
      rw [bpChain, List.getElem?_cons_succ] at hk
      cases h1 : sigma[i]? with
      | none => simp [h1] at hk
      | some ni =>
        cases hpi : ni.parent with
        | none => simp [h1, hpi] at hk
        | some p =>
          simp only [h1, hpi] at hk
          rw [bpStop]
          simp only [h1, hpi]
          exact ih p k2 j n hk hj hp

/-- C5 (amended): backpropagation walks the parent chain from the leaf: the
node of chain position `k` gets the `k`-times-flipped reward added to its
win count and its visit count incremented, every node off the chain is
untouched, the chain moves from each node to its parent, and it stops at
the FIRST ancestor with no parent — which is the stored severed child, not
necessarily the root of the current search. -/
theorem C5_backprop_chain {sigma : List (Node S A)} {i : Nat} {r : ℚ} {fuel : Nat}
    (hpd : PDec sigma) (hi : i < sigma.length) (hr : r.den = 1) (hf : i < fuel) :
    ∃ sigma2, Node.backpropagate sigma i r fuel = some sigma2 ∧
      sigma2.length = sigma.length ∧
      (bpChain sigma fuel i)[0]? = some i ∧
      (∀ (k j : Nat), (bpChain sigma fuel i)[k]? = some j →
        ∃ n : Node S A, sigma[j]? = some n ∧
          sigma2[j]? = some { n with wins := n.wins + flipIter k r,
                                     tot_plays := n.tot_plays + 1 } ∧
          (∀ p : Nat, n.parent = some p →
            (bpChain sigma fuel i)[k + 1]? = some p) ∧
          (n.parent = none → bpStop sigma fuel i = some j)) ∧
      (∀ j : Nat, j ∉ bpChain sigma fuel i → sigma2[j]? = sigma[j]?) := by
  obtain ⟨sigma2, hbp, hlen, hon, hoff⟩ := backprop_spec i sigma r fuel hpd hi hr hf
  obtain ⟨f, rfl⟩ : ∃ f, fuel = f + 1 := ⟨fuel - 1, by omega⟩
  refine ⟨sigma2, hbp, hlen, bpChain_head sigma f i, ?_, hoff⟩
  intro k j hk
  obtain ⟨n, n2, hn, hn2, heq⟩ := hon k j hk
  rw [heq] at hn2
  exact ⟨n, hn, hn2, fun p hp => bpChain_next hpd (f + 1) i k j n p hf hk hn hp,
    fun hp => bpStop_of_chain (f + 1) i k j n hk hn hp⟩

/-- C5 counterexample: in the reachable state after two iterations on
`GLine`, backpropagation from leaf 2 stops at node 1 (`bpStop` returns 1),
whose parent link was severed on publication — not at the root, 0. -/
theorem C5_counterexample :
    (runGLine 2).map (fun st => (st.rootId, bpStop st.nodes 10 2,
      st.nodes.map Node.parent)) = some (0, some 1, [none, none, some 1]) := by
  decide

theorem C5_backprop_chain_witness :
    ∃ sigma2, Node.backpropagate (initState GLine 0 0).nodes 0 1 1 = some sigma2 ∧
      sigma2.length = (initState GLine 0 0).nodes.length ∧
      (bpChain (initState GLine 0 0).nodes 1 0)[0]? = some 0 ∧
      (∀ (k j : Nat), (bpChain (initState GLine 0 0).nodes 1 0)[k]? = some j →
        ∃ n : Node Nat Nat, (initState GLine 0 0).nodes[j]? = some n ∧
          sigma2[j]? = some { n with wins := n.wins + flipIter k 1,
                                     tot_plays := n.tot_plays + 1 } ∧
          (∀ p : Nat, n.parent = some p →
            (bpChain (initState GLine 0 0).nodes 1 0)[k + 1]? = some p) ∧
          (n.parent = none → bpStop (initState GLine 0 0).nodes 1 0 = some j)) ∧
      (∀ j : Nat, j ∉ bpChain (initState GLine 0 0).nodes 1 0 →
        sigma2[j]? = (initState GLine 0 0).nodes[j]?) :=
  C5_backprop_chain
    (arenaInv_append arenaInv_nil (Node.init GLine 0 none 0) rfl).pdec
    (by decide) (by decide) (by decide)

end C5Main

section C3Main

variable {S A : Type}

theorem pyArgmaxGo_spec {α : Type} [LinearOrder α] (l0 : List α) :
    ∀ (xs : List α) (k bi : Nat) (bv : α),
      (∀ j : Nat, xs[j]? = l0[k + j]?) →
      l0[bi]? = some bv →
      bi < k →
      (∀ (j : Nat) (v : α), j < k → l0[j]? = some v → v ≤ bv) →
      (∀ (j : Nat) (v : α), j < bi → l0[j]? = some v → v < bv) →
      ∃ u, l0[pyArgmaxGo xs bi bv k]? = some u ∧
        (∀ (j : Nat) (v : α), l0[j]? = some v → v ≤ u) ∧
        (∀ (j : Nat) (v : α), j < pyArgmaxGo xs bi bv k → l0[j]? = some v → v < u) := by
  intro xs
  induction xs with
  | nil =>
    intro k bi bv hsuf hbi hbik hle hlt
    refine ⟨bv, hbi, ?_, hlt⟩
    intro j v hj
    by_cases hjk : j < k
    · exact hle j v hjk hj
    · have hnil := hsuf (j - k)
      rw [show k + (j - k) = j from by omega] at hnil
      simp only [List.getElem?_nil] at hnil
      rw [← hnil] at hj
      cases hj
  | cons x rest ih =>
    intro k bi bv hsuf hbi hbik hle hlt
    have hx : l0[k]? = some x := by
      have h0 := hsuf 0
      simpa using h0.symm
    have hsuf2 : ∀ j : Nat, rest[j]? = l0[(k + 1) + j]? := by
      intro j
      have hj1 := hsuf (j + 1)
      rw [List.getElem?_cons_succ] at hj1
      rw [hj1]
      rw [show k + (j + 1) = (k + 1) + j from by omega]
    by_cases hcmp : bv < x
    · rw [show pyArgmaxGo (x :: rest) bi bv k = pyArgmaxGo rest k x (k + 1) from
        by simp [pyArgmaxGo, hcmp]]
      apply ih (k + 1) k x hsuf2 hx (Nat.lt_succ_self k)
      · intro j v hj hjv
        rcases Nat.lt_or_ge j k with h | h
        · exact le_of_lt (lt_of_le_of_lt (hle j v h hjv) hcmp)
        · have hjk : j = k := by omega
          subst hjk
          rw [hx] at hjv
          cases hjv
          exact le_rfl
      · intro j v hj hjv
        exact lt_of_le_of_lt (hle j v hj hjv) hcmp
    · rw [show pyArgmaxGo (x :: rest) bi bv k = pyArgmaxGo rest bi bv (k + 1) from
        by simp [pyArgmaxGo, hcmp]]
      apply ih (k + 1) bi bv hsuf2 hbi (Nat.lt_succ_of_lt hbik)
      · intro j v hj hjv
        rcases Nat.lt_or_ge j k with h | h
        · exact hle j v h hjv
        · have hjk : j = k := by omega
          subst hjk
          rw [hx] at hjv
          cases hjv
          exact not_lt.1 hcmp
      · exact hlt

/-- `pyArgmax` on a nonempty list returns the index of the FIRST maximal
element: its value bounds every element, and every earlier element is
strictly below it. -/
theorem pyArgmax_spec {α : Type} [LinearOrder α] (l : List α) (hne : l ≠ []) :
    ∃ (k : Nat) (u : α), pyArgmax l = some k ∧ l[k]? = some u ∧
      (∀ (j : Nat) (v : α), l[j]? = some v → v ≤ u) ∧
      (∀ (j : Nat) (v : α), j < k → l[j]? = some v → v < u) := by
  cases l with
  | nil => exact absurd rfl hne
  | cons x xs =>
    obtain ⟨u, hu, hle, hlt⟩ := pyArgmaxGo_spec (x :: xs) xs 1 0 x
      (fun j => by rw [Nat.add_comm]; exact List.getElem?_cons_succ.symm)
      (by simp) (by decide)
      (fun j v hj hjv => by
        have hj0 : j = 0 := by omega
        subst hj0
        simp only [List.getElem?_cons_zero, Option.some_inj] at hjv
        rw [hjv])
      (fun j v hj => absurd hj (Nat.not_lt_zero j))
    exact ⟨pyArgmaxGo xs 0 x 1, u, rfl, hu, hle, hlt⟩

/-- C3 (amended): from a node with explored children, `get_best_action`
returns the action and child node at the FIRST index maximising UCT with
exploration constant 0 and leaves the arena unchanged; from a node with
zero explored children it picks an untested action at random, appends a
fresh child node for it, and returns that action with the child STATE —
the chosen action is NOT removed from the untested list. -/
theorem C3_best_action {g : Game S A} {chi : Nat} {sigma : List (Node S A)}
    {i : Nat} {n : Node S A} (hn : sigma[i]? = some n) :
    (n.children ≠ [] →
      ∃ (k : Nat) (u : ℝ),
        pyArgmax (n.children.map (fun c => Node.UCT sigma c 0)) = some k ∧
        (n.children.map (fun c => Node.UCT sigma c 0))[k]? = some u ∧
        (∀ (j : Nat) (v : ℝ),
          (n.children.map (fun c => Node.UCT sigma c 0))[j]? = some v → v ≤ u) ∧
        (∀ (j : Nat) (v : ℝ), j < k →
          (n.children.map (fun c => Node.UCT sigma c 0))[j]? = some v → v < u) ∧
        (∀ (a : A) (c : Nat), n.actions[k]? = some a → n.children[k]? = some c →
          Node.get_best_action g chi sigma i = some ((a, Sum.inl c), sigma))) ∧
    (n.children = [] →
      ∀ act : A, n.untested_actions[chi % n.untested_actions.length]? = some act →
        Node.get_best_action g chi sigma i =
          some ((act, Sum.inr (g.result n.state act)),
            (sigma.set i { n with children := n.children ++ [sigma.length],
                                  actions := n.actions ++ [act] }) ++
              [Node.init g (g.result n.state act) (some i) n.player_id])) := by
  constructor
  · intro hch
    have hz : ¬((n.children.map (fun c => Node.UCT sigma c 0)).length = 0) := by
      simpa using hch
    have hmne : n.children.map (fun c => Node.UCT sigma c 0) ≠ [] := by
      simpa using hch
    obtain ⟨k, u, hk, hu, hle, hlt⟩ :=
      pyArgmax_spec (n.children.map (fun c => Node.UCT sigma c 0)) hmne
    refine ⟨k, u, hk, hu, hle, hlt, ?_⟩
    intro a c ha hc
    simp only [Node.get_best_action, hn]
    rw [if_neg hz]
    simp only [hk, ha, hc]
  · intro hch act hu
    have hz : (n.children.map (fun c => Node.UCT sigma c 0)).length = 0 := by
      rw [hch]
      rfl
    simp only [Node.get_best_action, hn]
    rw [if_pos hz]
    simp only [hu]

/-- C3 counterexample: on the fresh root of `GLine` (zero explored
children, untested list `[10]`), the fallback branch recommends action 10
and appends a child node, but the root's untested list still contains 10
afterwards — the action is not removed. -/
theorem C3_counterexample :
    (Node.get_best_action GLine 0 (initState GLine 0 0).nodes 0).map
      (fun pr => (pr.1.1, pr.2.map (fun n => n.untested_actions))) =
      some (10, [[10], [11]]) := by decide

theorem C3_best_action_witness :
    ((Node.init GLine 0 none 0).children ≠ [] →
      ∃ (k : Nat) (u : ℝ),
        pyArgmax ((Node.init GLine 0 none 0).children.map
          (fun c => Node.UCT (initState GLine 0 0).nodes c 0)) = some k ∧
        ((Node.init GLine 0 none 0).children.map
          (fun c => Node.UCT (initState GLine 0 0).nodes c 0))[k]? = some u ∧
        (∀ (j : Nat) (v : ℝ),
          ((Node.init GLine 0 none 0).children.map
            (fun c => Node.UCT (initState GLine 0 0).nodes c 0))[j]? = some v →
          v ≤ u) ∧
        (∀ (j : Nat) (v : ℝ), j < k →
          ((Node.init GLine 0 none 0).children.map
            (fun c => Node.UCT (initState GLine 0 0).nodes c 0))[j]? = some v →
          v < u) ∧
        (∀ (a c : Nat), (Node.init GLine 0 none 0).actions[k]? = some a →
          (Node.init GLine 0 none 0).children[k]? = some c →
          Node.get_best_action GLine 0 (initState GLine 0 0).nodes 0 =
            some ((a, Sum.inl c), (initState GLine 0 0).nodes))) ∧
    ((Node.init GLine 0 none 0).children = [] →
      ∀ act : Nat,
        (Node.init GLine 0 none 0).untested_actions[0 %
          (Node.init GLine 0 none 0).untested_actions.length]? = some act →
        Node.get_best_action GLine 0 (initState GLine 0 0).nodes 0 =
          some ((act, Sum.inr (GLine.result (Node.init GLine 0 none 0).state act)),
            ((initState GLine 0 0).nodes.set 0
              { Node.init GLine 0 none 0 with
                  children := (Node.init GLine 0 none 0).children ++
                    [(initState GLine 0 0).nodes.length],
                  actions := (Node.init GLine 0 none 0).actions ++ [act] }) ++
              [Node.init GLine
                (GLine.result (Node.init GLine 0 none 0).state act) (some 0)
                (Node.init GLine 0 none 0).player_id])) :=
  C3_best_action (by decide)

end C3Main

section C6Main

variable {S A : Type}

theorem rollLoop_terminal {g : Game S A} {rho : Nat → Nat} :
    ∀ (fuel : Nat) (s t : S), rollLoop g rho fuel s = some t →
      g.terminal_test t = true := by
  intro fuel
  induction fuel with
  | zero => intro s t h; simp [rollLoop] at h
  | succ f ih =>
    intro s t h
    by_cases hterm : g.terminal_test s = true
    · rw [rollLoop, if_pos hterm] at h
      obtain rfl := Option.some_inj.mp h
      exact hterm
    · rw [rollLoop, if_neg hterm] at h
      cases ha : (g.actions s)[rho f % (g.actions s).length]? with
      | none => rw [ha] at h; cases h
      | some a =>
        simp only [ha] at h
        exact ih (g.result s a) t h

/-- C6 (amended): a successful rollout ends at a terminal state and returns
`convert_reward` of its utility from the node's fixed `player_id`, together
with the terminal state's side to move: reward 1 for utility `+inf`, 0 for
`-inf`, but any FINITE utility value is passed through unchanged, so the
reward is binary only under the ±inf utility convention. -/
theorem C6_rollout_reward {g : Game S A} {rho : Nat → Nat} {n : Node S A}
    {fuel : Nat} {r : ℚ} {p : Nat}
    (h : Node.roll_out g rho n fuel = some (r, p)) :
    ∃ t : S, g.terminal_test t = true ∧ p = g.player t ∧
      r = Node.convert_reward (g.utility t n.player_id) ∧
      (g.utility t n.player_id = ERat.pinf → r = 1) ∧
      (g.utility t n.player_id = ERat.ninf → r = 0) ∧
      (∀ q : ℚ, g.utility t n.player_id = ERat.fin q → r = q) := by
  rw [Node.roll_out] at h
  cases hl : rollLoop g rho fuel n.state with
  | none => rw [hl] at h; cases h
  | some t =>
    rw [hl] at h
    simp only [Option.map_some', Option.some_inj, Prod.mk.injEq] at h
    obtain ⟨hr, hp⟩ := h
    refine ⟨t, rollLoop_terminal fuel n.state t hl, hp.symm, hr.symm, ?_, ?_, ?_⟩
    · intro hput
      rw [← hr, hput]
      rfl
    · intro hput
      rw [← hr, hput]
      rfl
    · intro q hput
      rw [← hr, hput]
      rfl

/-- C6 counterexample: on `GameDraw` the terminal utility is the finite
value 1/2, and the rollout reward is 1/2 — neither 0 nor 1, refuting the
claim that `roll_out` always returns a binary reward. -/
theorem C6_counterexample :
    Node.roll_out GameDraw (fun _ => 0) (Node.init GameDraw 0 none 0) 1 =
      some (half, 1) ∧ half ≠ 0 ∧ half ≠ 1 := by decide

theorem C6_rollout_reward_witness :
    ∃ t : Nat, GLine.terminal_test t = true ∧ 1 = GLine.player t ∧
      (1 : ℚ) = Node.convert_reward (GLine.utility t 0) ∧
      (GLine.utility t 0 = ERat.pinf → (1 : ℚ) = 1) ∧
      (GLine.utility t 0 = ERat.ninf → (1 : ℚ) = 0) ∧
      (∀ q : ℚ, GLine.utility t 0 = ERat.fin q → (1 : ℚ) = q) :=
  C6_rollout_reward
    (by decide :
      Node.roll_out GLine (fun _ => 0) (Node.init GLine 2 none 0) 1 =
        some ((1 : ℚ), 1))

end C6Main

section C9Main

variable {S A : Type}

/-- C9: at the start of a turn a fresh zero-visit, zero-win node for the
incoming state is always created at the end of the arena; old nodes keep
their entries unchanged.  When the context holds a node and the first of
its children whose stored state equals the incoming state is found, the
search re-roots at that child (whose statistics are thus preserved); in
every other case the fresh node becomes the root. -/
theorem C9_tree_reuse [DecidableEq S] {g : Game S A} {pid : Nat}
    (sigma0 : List (Node S A)) (ctx : Option (Nat ⊕ S)) (s : S) :
    (run_mctsInit g pid sigma0 ctx s).1 = sigma0 ++ [Node.init g s none pid] ∧
    (Node.init g s none pid).tot_plays = 0 ∧
    (Node.init g s none pid).wins = 0 ∧
    (Node.init g s none pid).state = s ∧
    (∀ (j : Nat) (m : Node S A), sigma0[j]? = some m →
      (run_mctsInit g pid sigma0 ctx s).1[j]? = some m) ∧
    (run_mctsInit g pid sigma0 ctx s).1[sigma0.length]? =
      some (Node.init g s none pid) ∧
    (∀ (c : Nat) (cn : Node S A), ctx = some (Sum.inl c) →
      (sigma0 ++ [Node.init g s none pid])[c]? = some cn →
      ∀ j : Nat,
        cn.children.find? (fun j2 =>
          match (sigma0 ++ [Node.init g s none pid])[j2]? with
          | some m => decide (m.state = s)
          | none => false) = some j →
        (run_mctsInit g pid sigma0 ctx s).2 = j ∧
        ∃ m, (run_mctsInit g pid sigma0 ctx s).1[j]? = some m ∧ m.state = s) ∧
    (ctx = none → (run_mctsInit g pid sigma0 ctx s).2 = sigma0.length) ∧
    (∀ s0 : S, ctx = some (Sum.inr s0) →
      (run_mctsInit g pid sigma0 ctx s).2 = sigma0.length) ∧
    (∀ c : Nat, ctx = some (Sum.inl c) →
      (sigma0 ++ [Node.init g s none pid])[c]? = none →
      (run_mctsInit g pid sigma0 ctx s).2 = sigma0.length) ∧
    (∀ (c : Nat) (cn : Node S A), ctx = some (Sum.inl c) →
      (sigma0 ++ [Node.init g s none pid])[c]? = some cn →
      cn.children.find? (fun j2 =>
        match (sigma0 ++ [Node.init g s none pid])[j2]? with
        | some m => decide (m.state = s)
        | none => false) = none →
      (run_mctsInit g pid sigma0 ctx s).2 = sigma0.length) := by
  have hnodes : (run_mctsInit g pid sigma0 ctx s).1 =
      sigma0 ++ [Node.init g s none pid] := run_mctsInit_nodes g pid sigma0 ctx s
  refine ⟨hnodes, rfl, rfl, rfl, ?_, ?_, ?_, ?_, ?_, ?_, ?_⟩
  · intro j m hm
    rw [hnodes]
    rw [List.getElem?_append_left (lt_length_of_getElem? hm)]
    exact hm
  · rw [hnodes]
    exact List.getElem?_concat_length sigma0 (Node.init g s none pid)
  · intro c cn hctx hcn j hfind
    subst hctx
    constructor
    · simp only [run_mctsInit, hcn, hfind]
    · have hpj := List.find?_some hfind
      cases hj2 : (sigma0 ++ [Node.init g s none pid])[j]? with
      | none => rw [hj2] at hpj; cases hpj
      | some m =>
        rw [hj2] at hpj
        simp only [decide_eq_true_eq] at hpj
        exact ⟨m, by rw [hnodes]; exact hj2, hpj⟩
  · intro hctx
    subst hctx
    rfl
  · intro s0 hctx
    subst hctx
    rfl
  · intro c hctx hcn
    subst hctx
    simp only [run_mctsInit, hcn]
  · intro c cn hctx hcn hfind
    subst hctx
    simp only [run_mctsInit, hcn, hfind]

theorem C9_tree_reuse_witness :
    (run_mctsInit GLine 0 ctxArena (some (Sum.inl 0)) 1).2 = 1 ∧
    ∃ m, (run_mctsInit GLine 0 ctxArena (some (Sum.inl 0)) 1).1[1]? = some m ∧
      m.state = 1 :=
  (C9_tree_reuse ctxArena (some (Sum.inl 0)) 1).2.2.2.2.2.2.1 0
    { Node.init GLine 0 none 0 with children := [1] } rfl (by decide) 1 (by decide)

end C9Main

section C4Main

variable {S A : Type}

/-- C4: `UCT` of a node with zero visits is the sentinel 0 (for every
exploration constant), before any division; and in every reachable engine
state, a visited node's parent has a positive visit count, so the
logarithm's argument `parent.tot_plays` is at least 1 — never 0. -/
theorem C4_uct_guarded [DecidableEq S] {g : Game S A} {pid : Nat}
    {P : Nat → Nat → Nat} {X : Nat → Nat} {fuel : Nat} {st : EState S A}
    (h : Reach g pid P X fuel st) :
    ∀ (i : Nat) (n : Node S A), st.nodes[i]? = some n →
      (n.tot_plays = 0 → ∀ const : ℝ, Node.UCT st.nodes i const = 0) ∧
      (∀ p : Nat, n.parent = some p → 0 < n.tot_plays →
        ∃ m : Node S A, st.nodes[p]? = some m ∧ 0 < m.tot_plays ∧
          (1 : ℝ) ≤ ptotR st.nodes p) := by
  have hinv := reach_inv h
  intro i n hn
  constructor
  · intro h0 const
    simp only [Node.UCT, hn]
    rw [if_neg (by omega)]
  · intro p hp hpos
    obtain ⟨hpi, m, hm, hmono⟩ := hinv i n p hn hp
    refine ⟨m, hm, by omega, ?_⟩
    simp only [ptotR, hm]
    have h1 : 1 ≤ m.tot_plays := by omega
    exact_mod_cast h1

theorem C4_uct_guarded_witness :
    Node.UCT (initState GLine 0 0).nodes 0 1 = 0 :=
  (C4_uct_guarded
    (@Reach.start Nat Nat _ GLine 0 (fun _ _ => 0) (fun _ => 0) 10 0)
    0 (Node.init GLine 0 none 0) (by decide)).1 rfl 1

end C4Main
